import Mathlib

/-!
Verification development for the Rovo Dev ↔ OpenAI proxy
(`rovodev-proxy.ts`).  The proxy's request-serialization queue, busy-retry
session driver, SSE line reassembler, event classifier and the two stream
transcoders are shallowly embedded below; machine strings are modelled as
`List Char`, JSON values by an explicit inductive type, and the platform
`JSON.parse` by an abstract `parse : Str → Option Json` oracle supplied to
each transcoder.
-/

set_option autoImplicit false

namespace Rovodev

/-- Strings are modelled as character lists so that splitting and
concatenation lemmas are plain list inductions.  `TextDecoder`'s byte-level
reassembly is transparent at this granularity: a chunk boundary may fall at
any character boundary. -/
abbrev Str := List Char

/-- JavaScript whitespace characters removed by `String.prototype.trim`
(the ones that can occur in an SSE body). -/
def isWs (c : Char) : Bool :=
  c = ' ' || c = '\t' || c = '\n' || c = '\r' || c = '\x0b' || c = '\x0c'

/-- `String.prototype.trim`: drop whitespace from both ends. -/
def trimStr (s : Str) : Str :=
  ((s.dropWhile isWs).reverse.dropWhile isWs).reverse

/-- Prepend `x` onto the head element of a list of lines (used to express
how a split of a concatenation merges at the seam). -/
def consHead (x : Str) : List Str → List Str
  | [] => [x]
  | y :: ys => (x ++ y) :: ys

/-- JavaScript `s.split("\n")`: the list of newline-separated segments,
always non-empty, with the final (possibly empty) trailing fragment last. -/
def splitNl : Str → List Str
  | [] => [[]]
  | c :: cs => if c = '\n' then [] :: splitNl cs else consHead [c] (splitNl cs)

/-- Inverse of `splitNl`: re-join segments with newlines. -/
def joinNl : List Str → Str
  | [] => []
  | [l] => l
  | l :: ls => l ++ '\n' :: joinNl ls

theorem consHead_ne_nil (x : Str) (l : List Str) : consHead x l ≠ [] := by
  cases l <;> simp [consHead]

theorem splitNl_ne_nil (s : Str) : splitNl s ≠ [] := by
  induction s with
  | nil => simp [splitNl]
  | cons c cs ih =>
    simp only [splitNl]
    split
    · simp
    · exact consHead_ne_nil _ _

theorem mem_splitNl_no_nl (s : Str) : ∀ l ∈ splitNl s, '\n' ∉ l := by
  induction s with
  | nil =>
    intro l hl
    simp only [splitNl, List.mem_singleton] at hl
    simp [hl]
  | cons c cs ih =>
    intro l hl
    by_cases hc : c = '\n'
    · rw [splitNl, if_pos hc, List.mem_cons] at hl
      rcases hl with rfl | h
      · simp
      · exact ih l h
    · rw [splitNl, if_neg hc] at hl
      cases hsp : splitNl cs with
      | nil => exact absurd hsp (splitNl_ne_nil cs)
      | cons y ys =>
        rw [hsp] at hl
        simp only [consHead, List.singleton_append, List.mem_cons] at hl
        rcases hl with rfl | h
        · intro hmem
          rw [List.mem_cons] at hmem
          rcases hmem with h1 | h1
          · exact hc h1.symm
          · exact ih y (by rw [hsp]; exact List.mem_cons_self _ _) h1
        · exact ih l (by rw [hsp]; exact List.mem_cons_of_mem _ h)

theorem splitNl_of_no_nl (s : Str) (h : '\n' ∉ s) : splitNl s = [s] := by
  induction s with
  | nil => simp [splitNl]
  | cons c cs ih =>
    have hc : ¬ c = '\n' := by
      intro hc; exact h (by rw [hc]; exact List.mem_cons_self _ _)
    rw [splitNl, if_neg hc, ih (fun hm => h (List.mem_cons_of_mem _ hm))]
    simp [consHead]

theorem splitNl_append (a b : Str) :
    splitNl (a ++ b) =
      (splitNl a).dropLast ++ consHead ((splitNl a).getLastD []) (splitNl b) := by
  induction a with
  | nil =>
    show splitNl b
      = ([[]] : List Str).dropLast
        ++ consHead (([[]] : List Str).getLastD []) (splitNl b)
    cases hsp : splitNl b with
    | nil => exact absurd hsp (splitNl_ne_nil b)
    | cons y ys => simp [consHead]
  | cons c cs ih =>
    have hstep : (c :: cs : Str) ++ b = c :: (cs ++ b) := rfl
    rw [hstep]
    by_cases hc : c = '\n'
    · rw [splitNl, if_pos hc, splitNl, if_pos hc, ih]
      cases hsp : splitNl cs with
      | nil => exact absurd hsp (splitNl_ne_nil cs)
      | cons y ys => simp [hsp]
    · rw [splitNl, if_neg hc, splitNl, if_neg hc, ih]
      cases hsp : splitNl cs with
      | nil => exact absurd hsp (splitNl_ne_nil cs)
      | cons y ys =>
        cases ys with
        | nil =>
          cases hb : splitNl b <;> simp [consHead]
        | cons z zs => simp [consHead]

theorem joinNl_splitNl (s : Str) : joinNl (splitNl s) = s := by
  induction s with
  | nil => simp [splitNl, joinNl]
  | cons c cs ih =>
    by_cases hc : c = '\n'
    · rw [splitNl, if_pos hc]
      cases hsp : splitNl cs with
      | nil => exact absurd hsp (splitNl_ne_nil cs)
      | cons y ys =>
        rw [hsp] at ih
        subst hc
        cases ys <;> simp_all [joinNl]
    · rw [splitNl, if_neg hc]
      cases hsp : splitNl cs with
      | nil => exact absurd hsp (splitNl_ne_nil cs)
      | cons y ys =>
        rw [hsp] at ih
        cases ys with
        | nil => simp_all [consHead, joinNl]
        | cons z zs => simp_all [consHead, joinNl]

/-! ### JSON values and the event classifier -/

/-- JSON values as delivered by `JSON.parse`.  Numbers are modelled as
integers (the only numeric fields the proxy inspects are token counts). -/
inductive Json where
  | null : Json
  | bool : Bool → Json
  | num : Int → Json
  | str : Str → Json
  | arr : List Json → Json
  | obj : List (Str × Json) → Json

/-- Field lookup, `undefined` (absent) becoming `none`.  Non-objects have
no fields. -/
def Json.getField : Json → Str → Option Json
  | .obj fs, k => lookupField fs k
  | _, _ => none
where
  lookupField : List (Str × Json) → Str → Option Json
    | [], _ => none
    | (k', v) :: rest, k => if k' = k then some v else lookupField rest k

/-- JavaScript truthiness of a JSON value. -/
def Json.truthy : Json → Bool
  | .null => false
  | .bool b => b
  | .num n => n ≠ 0
  | .str s => s ≠ []
  | .arr _ => true
  | .obj _ => true

/-- `typeof data === "object" && data` — arrays and objects qualify,
`null` and primitives do not. -/
def Json.isObjLike : Json → Bool
  | .arr _ => true
  | .obj _ => true
  | _ => false

/-- Truthiness of an optional field value (`data.x?.y` guards). -/
def optTruthy : Option Json → Bool
  | some v => v.truthy
  | none => false

/-- `x || null` applied to an optional text field: a non-empty string
passes through, anything else becomes `none`.  (Text-bearing fields of the
backend grammar are strings.) -/
def strOrNull : Option Json → Option Str
  | some (.str s) => if s = [] then none else some s
  | _ => none

/-- `x ?? null` / bare read of a text field: any string passes through,
including the empty one; absent or non-string yields `none`. -/
def strOrAbsent : Option Json → Option Str
  | some (.str s) => some s
  | _ => none

/-- `typeof x === "number"`. -/
def isNumField : Option Json → Bool
  | some (.num _) => true
  | _ => false

/-- `field === "literal"` for an optional field value. -/
def fieldIsStr (o : Option Json) (s : Str) : Bool :=
  match o with
  | some (.str t) => t = s
  | _ => false

/-- `field === true` (strict equality against the boolean). -/
def fieldIsTrue (o : Option Json) : Bool :=
  match o with
  | some (.bool b) => b
  | _ => false

def keyPartKind : Str := "part_kind".data
def keyEventKind : Str := "event_kind".data
def keyPart : Str := "part".data
def keyContent : Str := "content".data
def keyDelta : Str := "delta".data
def keyPartDeltaKind : Str := "part_delta_kind".data
def keyContentDelta : Str := "content_delta".data
def keyTextDelta : Str := "text_delta".data
def keyType : Str := "type".data
def keyText : Str := "text".data
def keyDone : Str := "done".data
def keyEvent : Str := "event".data
def keyInputTokens : Str := "input_tokens".data
def keyOutputTokens : Str := "output_tokens".data
def keyStopReason : Str := "stop_reason".data

/-- The two trailing fallback patterns of `extractText` (reached when the
top-level `text_delta` is absent, non-string or empty).  The Anthropic
branch returns `data.delta.text ?? null` and the generic branch returns
`data.delta.text` when it is a string; with text fields modelled as
strings both reduce to reading `data.delta.text`. -/
def extractTextFallback (data : Json) : Option Str :=
  strOrAbsent ((data.getField keyDelta).bind (·.getField keyText))

/-- `extractText` from `rovodev-proxy.ts`: pulls visible text out of one
backend SSE event, first-party Rovo Dev shapes first, then the fallback
patterns, early-returning in source order. -/
def extractText (data : Json) : Option Str :=
  if ¬ data.isObjLike then none
  else if fieldIsStr (data.getField keyPartKind) "user-prompt".data then none
  else if fieldIsStr (data.getField keyEventKind) "part_start".data
      && fieldIsStr ((data.getField keyPart).bind (·.getField keyPartKind))
           "text".data then
    strOrNull ((data.getField keyPart).bind (·.getField keyContent))
  else if fieldIsStr (data.getField keyEventKind) "part_delta".data
      && fieldIsStr ((data.getField keyDelta).bind (·.getField keyPartDeltaKind))
           "text".data then
    strOrNull ((data.getField keyDelta).bind (·.getField keyContentDelta))
  else
    match data.getField keyTextDelta with
    | some (.str s) => if s = [] then extractTextFallback data else some s
    | _ => extractTextFallback data

/-- `isStreamEnd` from `rovodev-proxy.ts`: does this event signal
end-of-turn? -/
def isStreamEnd (data : Json) : Bool :=
  if ¬ data.isObjLike then false
  else
    isNumField (data.getField keyInputTokens)
    || isNumField (data.getField keyOutputTokens)
    || fieldIsStr (data.getField keyType) "message_stop".data
    || (fieldIsStr (data.getField keyType) "message_delta".data
        && optTruthy ((data.getField keyDelta).bind (·.getField keyStopReason)))
    || fieldIsTrue (data.getField keyDone)
    || fieldIsStr (data.getField keyType) "end".data
    || fieldIsStr (data.getField keyType) "stop".data
    || fieldIsStr (data.getField keyEvent) "done".data
    || fieldIsStr (data.getField keyEvent) "end".data

/-- Caller-side truthiness filter `if (textContent) { ... }`. -/
def truthyText : Option Str → Option Str
  | some s => if s = [] then none else some s
  | none => none

theorem truthyText_ne_nil {o : Option Str} {s : Str}
    (h : truthyText o = some s) : s ≠ [] := by
  cases o with
  | none => simp [truthyText] at h
  | some t =>
    simp only [truthyText] at h
    split at h
    · simp at h
    · rename_i ht; cases h; exact ht

/-! ### SSE line classification (shared by all handlers) -/

def dataPfx : Str := "data: ".data
def doneLit : Str := "[DONE]".data

/-- Result of looking at one reassembled line: skipped (blank, comment,
non-`data:`, unparsable), the literal `[DONE]` sentinel, or a parsed
event. -/
inductive LineClass where
  | skip : LineClass
  | doneMark : LineClass
  | evt : Json → LineClass

/-- The per-line dispatch every handler performs: trim, drop blanks and
`:` comments, require the `data: ` field prefix, slice off the prefix,
trim, compare against `[DONE]`, otherwise `JSON.parse` (unparsable lines
are skipped). -/
def classifyLine (parse : Str → Option Json) (line : Str) : LineClass :=
  let t := trimStr line
  if t = [] then .skip
  else if t.head? = some ':' then .skip
  else if ¬ dataPfx.isPrefixOf t then .skip
  else
    let j := trimStr (t.drop 6)
    if j = doneLit then .doneMark
    else
      match parse j with
      | none => .skip
      | some e => .evt e

/-- The visible text, if any, a single line contributes. -/
def lineText (parse : Str → Option Json) (line : Str) : Option Str :=
  match classifyLine parse line with
  | .evt e => truthyText (extractText e)
  | _ => none

/-- All text fragments contributed by a line sequence, in order. -/
def extractedTexts (parse : Str → Option Json) (lines : List Str) : List Str :=
  lines.filterMap (lineText parse)

/-! ### Chat-completions streaming transcoder -/

/-- Per-call constants baked into every emitted chunk. -/
structure CCMeta where
  chatId : Str
  created : Nat
  modelName : Str
deriving DecidableEq

/-- One item written to the client SSE stream in chat-completions mode:
a chunk object (with optional content delta and optional finish reason)
or the `data: [DONE]` terminator line. -/
inductive CCOut where
  | chunk : CCMeta → Option Str → Option Str → CCOut
  | done : CCOut
deriving DecidableEq

/-- The terminal chunk: empty delta, `finish_reason: "stop"`. -/
def stopChunk (m : CCMeta) : CCOut := .chunk m none (some "stop".data)

/-- `processSSELines`' loop body for one line. -/
def processSSELine (parse : Str → Option Json) (m : CCMeta)
    (sentDone : Bool) (line : Str) : List CCOut × Bool :=
  match classifyLine parse line with
  | .skip => ([], sentDone)
  | .doneMark => if sentDone then ([], true) else ([.done], true)
  | .evt e =>
    let emits : List CCOut :=
      match truthyText (extractText e) with
      | some s => [.chunk m (some s) none]
      | none => []
    if sentDone then (emits, true)
    else if isStreamEnd e then (emits ++ [stopChunk m, .done], true)
    else (emits, false)

/-- `processSSELines` from `rovodev-proxy.ts`: fold the per-line body over
a line list, threading the `sentDone` flag; returns the emitted items and
the final flag. -/
def processSSELines (parse : Str → Option Json) (m : CCMeta) :
    List Str → Bool → List CCOut × Bool
  | [], sentDone => ([], sentDone)
  | l :: ls, sentDone =>
    let r := processSSELine parse m sentDone l
    let r2 := processSSELines parse m ls r.2
    (r.1 ++ r2.1, r2.2)

theorem processSSELines_append (parse : Str → Option Json) (m : CCMeta)
    (l1 l2 : List Str) (d : Bool) :
    processSSELines parse m (l1 ++ l2) d
      = ((processSSELines parse m l1 d).1
           ++ (processSSELines parse m l2 (processSSELines parse m l1 d).2).1,
         (processSSELines parse m l2 (processSSELines parse m l1 d).2).2) := by
  induction l1 generalizing d with
  | nil => simp [processSSELines]
  | cons l ls ih => simp [processSSELines, ih]

/-- The `transform` step of `handleStreamingCompletion`, iterated over a
whole chunk list: append each chunk to the carried buffer, split on
newline, hold back the final fragment, process the complete lines. -/
def ccFeedMany (parse : Str → Option Json) (m : CCMeta) :
    Str → Bool → List Str → Str × Bool × List CCOut
  | buf, d, [] => (buf, d, [])
  | buf, d, c :: cs =>
    let s := splitNl (buf ++ c)
    let r := processSSELines parse m s.dropLast d
    let rest := ccFeedMany parse m (s.getLastD []) r.2 cs
    (rest.1, rest.2.1, r.1 ++ rest.2.2)

/-- The `flush` step of `handleStreamingCompletion`: drain the remaining
buffer as one line if it trims non-blank, then the safety net emitting
`stop` + `[DONE]` if no terminator went out. -/
def ccFlush (parse : Str → Option Json) (m : CCMeta)
    (buf : Str) (d : Bool) : List CCOut :=
  let r := if trimStr buf ≠ [] then processSSELines parse m [buf] d else ([], d)
  r.1 ++ (if r.2 then [] else [stopChunk m, .done])

/-- The whole chat-completions streaming transcoder on a chunked backend
body. -/
def ccRun (parse : Str → Option Json) (m : CCMeta) (chunks : List Str) :
    List CCOut :=
  let f := ccFeedMany parse m [] false chunks
  f.2.2 ++ ccFlush parse m f.1 f.2.1

/-- The same transcoder expressed over an already reassembled line list;
`ccRun` is proved to factor through this. -/
def ccRunLines (parse : Str → Option Json) (m : CCMeta) (lines : List Str) :
    List CCOut :=
  let r := processSSELines parse m lines false
  r.1 ++ (if r.2 then [] else [stopChunk m, .done])

/-- `handleNonStreamingCompletion`'s aggregation loop: split the full SSE
body on newlines and concatenate every extracted text fragment. -/
def aggregateContent (parse : Str → Option Json) (body : Str) : Str :=
  aggAux (splitNl body)
where
  aggAux : List Str → Str
    | [] => []
    | l :: ls =>
      (match classifyLine parse l with
       | .evt e =>
         match truthyText (extractText e) with
         | some s => s
         | none => []
       | _ => []) ++ aggAux ls

/-! ### The SSE line reassembler in isolation -/

/-- Reassembly only: complete lines produced so far and the held-back
trailing fragment. -/
def reassembleMany : Str → List Str → List Str × Str
  | buf, [] => ([], buf)
  | buf, c :: cs =>
    let s := splitNl (buf ++ c)
    let rest := reassembleMany (s.getLastD []) cs
    (s.dropLast ++ rest.1, rest.2)

/-- The full line sequence a chunked body is reassembled into, the flush
treating a non-blank trailing fragment as one final line. -/
def reassembleLines (chunks : List Str) : List Str :=
  let r := reassembleMany [] chunks
  r.1 ++ (if trimStr r.2 ≠ [] then [r.2] else [])

/-! ### Reassembly canonical forms -/

theorem getLastD_mem_of_ne_nil {α : Type} (l : List α) (d : α) (h : l ≠ []) :
    l.getLastD d ∈ l := by
  induction l generalizing d with
  | nil => exact absurd rfl h
  | cons a as ih =>
    cases as with
    | nil => simp [List.getLastD]
    | cons b bs =>
      have : (a :: b :: bs : List α).getLastD d = (b :: bs).getLastD a := rfl
      rw [this]
      exact List.mem_cons_of_mem _ (ih a (by simp))

theorem getLastD_default_irrel {α : Type} (l : List α) (d d' : α)
    (h : l ≠ []) : l.getLastD d = l.getLastD d' := by
  cases l with
  | nil => exact absurd rfl h
  | cons a as => rfl

theorem getLastD_append_of_ne_nil {α : Type} (u v : List α) (d : α)
    (h : v ≠ []) : (u ++ v).getLastD d = v.getLastD d := by
  rw [List.getLastD_eq_getLast?, List.getLastD_eq_getLast?,
    List.getLast?_append_of_ne_nil u h]

theorem dropLast_append_ne_nil {α : Type} (u v : List α) (h : v ≠ []) :
    (u ++ v).dropLast = u ++ v.dropLast :=
  List.dropLast_append_of_ne_nil u h

theorem no_nl_getLastD_splitNl (x : Str) : '\n' ∉ (splitNl x).getLastD [] :=
  mem_splitNl_no_nl x _ (getLastD_mem_of_ne_nil _ _ (splitNl_ne_nil x))

theorem reassembleMany_eq (cs : List Str) : ∀ (buf : Str), '\n' ∉ buf →
    reassembleMany buf cs
      = ((splitNl (buf ++ cs.flatten)).dropLast, (splitNl (buf ++ cs.flatten)).getLastD []) := by
  induction cs with
  | nil =>
    intro buf hb
    simp [reassembleMany, splitNl_of_no_nl buf hb]
  | cons c cs ih =>
    intro buf hb
    have hbuf' : '\n' ∉ (splitNl (buf ++ c)).getLastD [] :=
      no_nl_getLastD_splitNl (buf ++ c)
    have hX : consHead ((splitNl (buf ++ c)).getLastD []) (splitNl cs.flatten) ≠ [] :=
      consHead_ne_nil _ _
    have hjoin : buf ++ (c :: cs).flatten = (buf ++ c) ++ cs.flatten := by
      simp [List.flatten]
    have hsplit : splitNl (buf ++ (c :: cs).flatten)
        = (splitNl (buf ++ c)).dropLast
          ++ consHead ((splitNl (buf ++ c)).getLastD []) (splitNl cs.flatten) := by
      rw [hjoin, splitNl_append]
    have hinner : splitNl ((splitNl (buf ++ c)).getLastD [] ++ cs.flatten)
        = consHead ((splitNl (buf ++ c)).getLastD []) (splitNl cs.flatten) := by
      rw [splitNl_append, splitNl_of_no_nl _ hbuf']
      rfl
    show ((splitNl (buf ++ c)).dropLast ++ (reassembleMany ((splitNl (buf ++ c)).getLastD []) cs).1,
          (reassembleMany ((splitNl (buf ++ c)).getLastD []) cs).2)
        = _
    rw [ih _ hbuf', hinner, hsplit,
      dropLast_append_ne_nil _ _ hX, getLastD_append_of_ne_nil _ _ _ hX]

theorem ccFeedMany_eq (parse : Str → Option Json) (m : CCMeta)
    (cs : List Str) : ∀ (buf : Str) (d : Bool), '\n' ∉ buf →
    ccFeedMany parse m buf d cs
      = ((splitNl (buf ++ cs.flatten)).getLastD [],
         (processSSELines parse m (splitNl (buf ++ cs.flatten)).dropLast d).2,
         (processSSELines parse m (splitNl (buf ++ cs.flatten)).dropLast d).1) := by
  induction cs with
  | nil =>
    intro buf d hb
    simp [ccFeedMany, splitNl_of_no_nl buf hb, processSSELines]
  | cons c cs ih =>
    intro buf d hb
    have hbuf' : '\n' ∉ (splitNl (buf ++ c)).getLastD [] :=
      no_nl_getLastD_splitNl (buf ++ c)
    have hX : consHead ((splitNl (buf ++ c)).getLastD []) (splitNl cs.flatten) ≠ [] :=
      consHead_ne_nil _ _
    have hjoin : buf ++ (c :: cs).flatten = (buf ++ c) ++ cs.flatten := by
      simp [List.flatten]
    have hsplit : splitNl (buf ++ (c :: cs).flatten)
        = (splitNl (buf ++ c)).dropLast
          ++ consHead ((splitNl (buf ++ c)).getLastD []) (splitNl cs.flatten) := by
      rw [hjoin, splitNl_append]
    have hinner : splitNl ((splitNl (buf ++ c)).getLastD [] ++ cs.flatten)
        = consHead ((splitNl (buf ++ c)).getLastD []) (splitNl cs.flatten) := by
      rw [splitNl_append, splitNl_of_no_nl _ hbuf']
      rfl
    show ((ccFeedMany parse m ((splitNl (buf ++ c)).getLastD [])
            (processSSELines parse m (splitNl (buf ++ c)).dropLast d).2 cs).1, _, _) = _
    rw [ih _ _ hbuf', hinner, hsplit,
      dropLast_append_ne_nil _ _ hX, getLastD_append_of_ne_nil _ _ _ hX,
      processSSELines_append]

/-- The line sequence an unchunked body reassembles to: its complete
lines, plus the trailing fragment when it trims non-blank. -/
def linesOfBody (body : Str) : List Str :=
  (splitNl body).dropLast
    ++ (if trimStr ((splitNl body).getLastD []) ≠ []
        then [(splitNl body).getLastD []] else [])

theorem reassembleLines_eq_body (chunks : List Str) :
    reassembleLines chunks = linesOfBody chunks.flatten := by
  have hnil : ('\n' : Char) ∉ ([] : Str) := by simp
  rw [reassembleLines, reassembleMany_eq chunks [] hnil, linesOfBody]
  simp

theorem ccRun_factor (parse : Str → Option Json) (m : CCMeta)
    (chunks : List Str) :
    ccRun parse m chunks = ccRunLines parse m (reassembleLines chunks) := by
  have hnil : ('\n' : Char) ∉ ([] : Str) := by simp
  rw [ccRun, ccFeedMany_eq parse m chunks [] false hnil,
    reassembleLines, reassembleMany_eq chunks [] hnil]
  simp only [List.nil_append]
  rw [ccRunLines, processSSELines_append, ccFlush]
  by_cases ht : trimStr ((splitNl chunks.flatten).getLastD []) ≠ []
  · rw [if_pos ht, if_pos ht]
    simp [List.append_assoc]
  · rw [if_neg ht, if_neg ht]
    simp [processSSELines]

/-! ### Response-lifecycle streaming transcoder
(`handleStreamingResponsesViaCompletions`, the variant the router
dispatches `/v1/responses` streaming requests to) -/

/-- Token usage counters captured from a backend usage event. -/
structure Usage where
  inputTokens : Int
  outputTokens : Int
  totalTokens : Int
deriving DecidableEq

def zeroUsage : Usage := ⟨0, 0, 0⟩

def numOr0 : Option Json → Int
  | some (.num n) => n
  | _ => 0

/-- `if (typeof data.input_tokens === "number") usageData = {...}`. -/
def captureUsage (e : Json) (u : Usage) : Usage :=
  match e.getField keyInputTokens with
  | some (.num n) =>
    ⟨n, numOr0 (e.getField keyOutputTokens),
      n + numOr0 (e.getField keyOutputTokens)⟩
  | _ => u

/-- One Responses-API lifecycle event, tagged with its
`sequence_number`. -/
inductive RLOut where
  | created : Nat → RLOut
  | inProgress : Nat → RLOut
  | outputItemAdded : Nat → RLOut
  | contentPartAdded : Nat → RLOut
  | outputTextDelta : Nat → Str → RLOut
  | outputTextDone : Nat → Str → RLOut
  | contentPartDone : Nat → Str → RLOut
  | outputItemDone : Nat → Str → RLOut
  | completed : Nat → Str → Usage → RLOut
deriving DecidableEq

/-- Closure state of one lifecycle call: accumulated text, the preamble
flag, the sequence counter and captured usage. -/
structure RLCore where
  fullText : Str
  preambleSent : Bool
  seqNum : Nat
  usage : Usage
deriving DecidableEq

def rlInit : RLCore := ⟨[], false, 0, zeroUsage⟩

/-- `sendPreamble`: the four opening lifecycle events. -/
def rlPreamble (n : Nat) : List RLOut :=
  [.created n, .inProgress (n + 1), .outputItemAdded (n + 2),
   .contentPartAdded (n + 3)]

/-- The four closing lifecycle events emitted by `flush` when the
preamble went out. -/
def rlClosing (n : Nat) (txt : Str) (u : Usage) : List RLOut :=
  [.outputTextDone n txt, .contentPartDone (n + 1) txt,
   .outputItemDone (n + 2) txt, .completed (n + 3) txt u]

/-- Emit one text fragment: lazily send the preamble first if it has not
gone out, accumulate the text, emit the delta event. -/
def rlEmitText (st : RLCore) (s : Str) : RLCore × List RLOut :=
  if st.preambleSent then
    ({ st with fullText := st.fullText ++ s, seqNum := st.seqNum + 1 },
     [.outputTextDelta st.seqNum s])
  else
    (⟨st.fullText ++ s, true, st.seqNum + 5, st.usage⟩,
     rlPreamble st.seqNum ++ [.outputTextDelta (st.seqNum + 4) s])

/-- The `transform` loop body for one complete line: capture usage,
then emit any extracted text. -/
def rlStep (parse : Str → Option Json) (st : RLCore) (line : Str) :
    RLCore × List RLOut :=
  match classifyLine parse line with
  | .evt e =>
    let st1 := { st with usage := captureUsage e st.usage }
    match truthyText (extractText e) with
    | some s => rlEmitText st1 s
    | none => (st1, [])
  | _ => (st, [])

def rlSteps (parse : Str → Option Json) : RLCore → List Str → RLCore × List RLOut
  | st, [] => (st, [])
  | st, l :: ls =>
    let r := rlStep parse st l
    let r2 := rlSteps parse r.1 ls
    (r2.1, r.2 ++ r2.2)

/-- The `flush` handling of the held-back fragment: same dispatch but no
usage capture. -/
def rlFlushLine (parse : Str → Option Json) (st : RLCore) (line : Str) :
    RLCore × List RLOut :=
  match classifyLine parse line with
  | .evt e =>
    match truthyText (extractText e) with
    | some s => rlEmitText st s
    | none => (st, [])
  | _ => (st, [])

def rlFeedMany (parse : Str → Option Json) :
    Str → RLCore → List Str → Str × RLCore × List RLOut
  | buf, st, [] => (buf, st, [])
  | buf, st, c :: cs =>
    let s := splitNl (buf ++ c)
    let r := rlSteps parse st s.dropLast
    let rest := rlFeedMany parse (s.getLastD []) r.1 cs
    (rest.1, rest.2.1, r.2 ++ rest.2.2)

/-- The whole response-lifecycle streaming transcoder on a chunked
backend body: transform each chunk, flush the trailing fragment, then the
closing events iff the preamble went out. -/
def rlRun (parse : Str → Option Json) (chunks : List Str) : List RLOut :=
  let f := rlFeedMany parse [] rlInit chunks
  let fl := if trimStr f.1 ≠ [] then rlFlushLine parse f.2.1 f.1 else (f.2.1, [])
  f.2.2 ++ fl.2
    ++ (if fl.1.preambleSent then rlClosing fl.1.seqNum fl.1.fullText fl.1.usage
        else [])

theorem rlSteps_append (parse : Str → Option Json) (l1 l2 : List Str) :
    ∀ st, rlSteps parse st (l1 ++ l2)
      = ((rlSteps parse (rlSteps parse st l1).1 l2).1,
         (rlSteps parse st l1).2 ++ (rlSteps parse (rlSteps parse st l1).1 l2).2) := by
  induction l1 with
  | nil => intro st; simp [rlSteps]
  | cons l ls ih => intro st; simp [rlSteps, ih]

theorem rlFeedMany_eq (parse : Str → Option Json) (cs : List Str) :
    ∀ (buf : Str) (st : RLCore), '\n' ∉ buf →
    rlFeedMany parse buf st cs
      = ((splitNl (buf ++ cs.flatten)).getLastD [],
         (rlSteps parse st (splitNl (buf ++ cs.flatten)).dropLast).1,
         (rlSteps parse st (splitNl (buf ++ cs.flatten)).dropLast).2) := by
  induction cs with
  | nil =>
    intro buf st hb
    simp [rlFeedMany, splitNl_of_no_nl buf hb, rlSteps]
  | cons c cs ih =>
    intro buf st hb
    have hbuf' : '\n' ∉ (splitNl (buf ++ c)).getLastD [] :=
      no_nl_getLastD_splitNl (buf ++ c)
    have hX : consHead ((splitNl (buf ++ c)).getLastD []) (splitNl cs.flatten) ≠ [] :=
      consHead_ne_nil _ _
    have hjoin : buf ++ (c :: cs).flatten = (buf ++ c) ++ cs.flatten := by
      simp [List.flatten]
    have hsplit : splitNl (buf ++ (c :: cs).flatten)
        = (splitNl (buf ++ c)).dropLast
          ++ consHead ((splitNl (buf ++ c)).getLastD []) (splitNl cs.flatten) := by
      rw [hjoin, splitNl_append]
    have hinner : splitNl ((splitNl (buf ++ c)).getLastD [] ++ cs.flatten)
        = consHead ((splitNl (buf ++ c)).getLastD []) (splitNl cs.flatten) := by
      rw [splitNl_append, splitNl_of_no_nl _ hbuf']
      rfl
    show ((rlFeedMany parse ((splitNl (buf ++ c)).getLastD [])
            (rlSteps parse st (splitNl (buf ++ c)).dropLast).1 cs).1, _, _) = _
    rw [ih _ _ hbuf', hinner, hsplit,
      dropLast_append_ne_nil _ _ hX, getLastD_append_of_ne_nil _ _ _ hX,
      rlSteps_append]

/-! ### Structural characterization of the lifecycle transcoder -/

/-- The usage-relevant effect of one line. -/
def lineUsage (parse : Str → Option Json) (u : Usage) (l : Str) : Usage :=
  match classifyLine parse l with
  | .evt e => captureUsage e u
  | _ => u

/-- Usage captured across a line sequence. -/
def usageFold (parse : Str → Option Json) : Usage → List Str → Usage
  | u, [] => u
  | u, l :: ls => usageFold parse (lineUsage parse u l) ls

/-- The delta events for a text-fragment sequence, numbered from `n`. -/
def deltaSeq : Nat → List Str → List RLOut
  | _, [] => []
  | n, t :: ts => .outputTextDelta n t :: deltaSeq (n + 1) ts

theorem deltaSeq_append (n : Nat) (xs ys : List Str) :
    deltaSeq n (xs ++ ys) = deltaSeq n xs ++ deltaSeq (n + xs.length) ys := by
  induction xs generalizing n with
  | nil => simp [deltaSeq]
  | cons x xs ih =>
    have h1 : (x :: xs : List Str) ++ ys = x :: (xs ++ ys) := rfl
    rw [h1, deltaSeq, deltaSeq, ih (n + 1)]
    have h2 : n + 1 + xs.length = n + (xs.length + 1) := by omega
    rw [h2]
    simp

theorem rlSteps_cons (parse : Str → Option Json) (st : RLCore) (l : Str)
    (ls : List Str) :
    rlSteps parse st (l :: ls)
      = ((rlSteps parse (rlStep parse st l).1 ls).1,
         (rlStep parse st l).2 ++ (rlSteps parse (rlStep parse st l).1 ls).2) :=
  rfl

theorem rlStep_of_skip (parse : Str → Option Json) (st : RLCore) (l : Str)
    (h : classifyLine parse l = .skip) : rlStep parse st l = (st, []) := by
  rw [rlStep, h]

theorem rlStep_of_doneMark (parse : Str → Option Json) (st : RLCore) (l : Str)
    (h : classifyLine parse l = .doneMark) : rlStep parse st l = (st, []) := by
  rw [rlStep, h]

theorem rlStep_of_evt_none (parse : Str → Option Json) (st : RLCore) (l : Str)
    (e : Json) (hc : classifyLine parse l = .evt e)
    (ht : truthyText (extractText e) = none) :
    rlStep parse st l = ({ st with usage := captureUsage e st.usage }, []) := by
  rw [rlStep, hc]
  simp [ht]

theorem rlStep_of_evt_some (parse : Str → Option Json) (st : RLCore) (l : Str)
    (e : Json) (s : Str) (hc : classifyLine parse l = .evt e)
    (ht : truthyText (extractText e) = some s) :
    rlStep parse st l = rlEmitText { st with usage := captureUsage e st.usage } s := by
  rw [rlStep, hc]
  simp [ht]

theorem lineText_of_skip (parse : Str → Option Json) (l : Str)
    (h : classifyLine parse l = .skip) : lineText parse l = none := by
  rw [lineText, h]

theorem lineText_of_doneMark (parse : Str → Option Json) (l : Str)
    (h : classifyLine parse l = .doneMark) : lineText parse l = none := by
  rw [lineText, h]

theorem lineText_of_evt (parse : Str → Option Json) (l : Str) (e : Json)
    (h : classifyLine parse l = .evt e) :
    lineText parse l = truthyText (extractText e) := by
  rw [lineText, h]

theorem lineUsage_of_skip (parse : Str → Option Json) (u : Usage) (l : Str)
    (h : classifyLine parse l = .skip) : lineUsage parse u l = u := by
  rw [lineUsage, h]

theorem lineUsage_of_doneMark (parse : Str → Option Json) (u : Usage) (l : Str)
    (h : classifyLine parse l = .doneMark) : lineUsage parse u l = u := by
  rw [lineUsage, h]

theorem lineUsage_of_evt (parse : Str → Option Json) (u : Usage) (l : Str)
    (e : Json) (h : classifyLine parse l = .evt e) :
    lineUsage parse u l = captureUsage e u := by
  rw [lineUsage, h]

theorem extractedTexts_cons (parse : Str → Option Json) (l : Str)
    (ls : List Str) :
    extractedTexts parse (l :: ls)
      = (match lineText parse l with
         | some t => t :: extractedTexts parse ls
         | none => extractedTexts parse ls) := by
  rw [extractedTexts, List.filterMap_cons]
  cases lineText parse l <;> simp [extractedTexts]

theorem usageFold_cons (parse : Str → Option Json) (u : Usage) (l : Str)
    (ls : List Str) :
    usageFold parse u (l :: ls) = usageFold parse (lineUsage parse u l) ls :=
  rfl

theorem rlSteps_sent (parse : Str → Option Json) (lines : List Str) :
    ∀ st : RLCore, st.preambleSent = true →
    rlSteps parse st lines
      = (⟨st.fullText ++ (extractedTexts parse lines).flatten, true,
          st.seqNum + (extractedTexts parse lines).length,
          usageFold parse st.usage lines⟩,
         deltaSeq st.seqNum (extractedTexts parse lines)) := by
  induction lines with
  | nil =>
    intro st h
    cases st
    simp_all [rlSteps, extractedTexts, deltaSeq, usageFold]
  | cons l ls ih =>
    intro st h
    cases hcl : classifyLine parse l with
    | skip =>
      rw [rlSteps_cons, rlStep_of_skip parse st l hcl, extractedTexts_cons,
        lineText_of_skip parse l hcl, usageFold_cons,
        lineUsage_of_skip parse st.usage l hcl, ih st h]
      simp
    | doneMark =>
      rw [rlSteps_cons, rlStep_of_doneMark parse st l hcl, extractedTexts_cons,
        lineText_of_doneMark parse l hcl, usageFold_cons,
        lineUsage_of_doneMark parse st.usage l hcl, ih st h]
      simp
    | evt e =>
      cases htt : truthyText (extractText e) with
      | none =>
        rw [rlSteps_cons, rlStep_of_evt_none parse st l e hcl htt,
          extractedTexts_cons, lineText_of_evt parse l e hcl, htt,
          usageFold_cons, lineUsage_of_evt parse st.usage l e hcl,
          ih _ (by simp [h])]
        simp
      | some s =>
        rw [rlSteps_cons, rlStep_of_evt_some parse st l e s hcl htt,
          extractedTexts_cons, lineText_of_evt parse l e hcl, htt,
          usageFold_cons, lineUsage_of_evt parse st.usage l e hcl]
        rw [rlEmitText]
        simp only [h, if_pos]
        rw [ih _ (by simp [h])]
        simp [deltaSeq, List.append_assoc]
        omega

theorem rlSteps_unsent_none (parse : Str → Option Json) (lines : List Str) :
    ∀ st : RLCore, st.preambleSent = false →
    extractedTexts parse lines = [] →
    rlSteps parse st lines
      = ({ st with usage := usageFold parse st.usage lines }, []) := by
  induction lines with
  | nil => intro st h _; simp [rlSteps, usageFold]
  | cons l ls ih =>
    intro st h hts
    rw [extractedTexts_cons] at hts
    cases hcl : classifyLine parse l with
    | skip =>
      rw [lineText_of_skip parse l hcl] at hts
      rw [rlSteps_cons, rlStep_of_skip parse st l hcl, usageFold_cons,
        lineUsage_of_skip parse st.usage l hcl, ih st h (by simpa using hts)]
      simp
    | doneMark =>
      rw [lineText_of_doneMark parse l hcl] at hts
      rw [rlSteps_cons, rlStep_of_doneMark parse st l hcl, usageFold_cons,
        lineUsage_of_doneMark parse st.usage l hcl, ih st h (by simpa using hts)]
      simp
    | evt e =>
      rw [lineText_of_evt parse l e hcl] at hts
      cases htt : truthyText (extractText e) with
      | none =>
        rw [htt] at hts
        rw [rlSteps_cons, rlStep_of_evt_none parse st l e hcl htt,
          usageFold_cons, lineUsage_of_evt parse st.usage l e hcl,
          ih _ (by simp [h]) (by simpa using hts)]
        simp
      | some s =>
        rw [htt] at hts
        simp at hts

theorem rlSteps_unsent_some (parse : Str → Option Json) (lines : List Str) :
    ∀ (st : RLCore) (t : Str) (ts : List Str), st.preambleSent = false →
    extractedTexts parse lines = t :: ts →
    rlSteps parse st lines
      = (⟨st.fullText ++ (t :: ts).flatten, true,
          st.seqNum + 4 + (t :: ts).length,
          usageFold parse st.usage lines⟩,
         rlPreamble st.seqNum ++ deltaSeq (st.seqNum + 4) (t :: ts)) := by
  induction lines with
  | nil => intro st t ts h hts; simp [extractedTexts] at hts
  | cons l ls ih =>
    intro st t ts h hts
    rw [extractedTexts_cons] at hts
    cases hcl : classifyLine parse l with
    | skip =>
      rw [lineText_of_skip parse l hcl] at hts
      rw [rlSteps_cons, rlStep_of_skip parse st l hcl, usageFold_cons,
        lineUsage_of_skip parse st.usage l hcl, ih st t ts h (by simpa using hts)]
      simp
    | doneMark =>
      rw [lineText_of_doneMark parse l hcl] at hts
      rw [rlSteps_cons, rlStep_of_doneMark parse st l hcl, usageFold_cons,
        lineUsage_of_doneMark parse st.usage l hcl, ih st t ts h (by simpa using hts)]
      simp
    | evt e =>
      rw [lineText_of_evt parse l e hcl] at hts
      cases htt : truthyText (extractText e) with
      | none =>
        rw [htt] at hts
        rw [rlSteps_cons, rlStep_of_evt_none parse st l e hcl htt,
          usageFold_cons, lineUsage_of_evt parse st.usage l e hcl,
          ih _ t ts (by simp [h]) (by simpa using hts)]
        simp
      | some s =>
        rw [htt] at hts
        simp only [Option.some.injEq] at hts
        have hst : s = t ∧ extractedTexts parse ls = ts := by
          have := hts
          exact ⟨by injection this, by injection this⟩
        rcases hst with ⟨rfl, hls⟩
        rw [rlSteps_cons, rlStep_of_evt_some parse st l e s hcl htt,
          usageFold_cons, lineUsage_of_evt parse st.usage l e hcl]
        rw [rlEmitText]
        simp only [h, if_neg, Bool.false_eq_true, not_false_eq_true]
        rw [rlSteps_sent parse ls _ (by simp), hls]
        simp [deltaSeq, List.append_assoc]
        omega

theorem rlFlushLine_none (parse : Str → Option Json) (st : RLCore) (l : Str)
    (h : lineText parse l = none) : rlFlushLine parse st l = (st, []) := by
  cases hcl : classifyLine parse l with
  | skip => rw [rlFlushLine, hcl]
  | doneMark => rw [rlFlushLine, hcl]
  | evt e =>
    rw [lineText_of_evt parse l e hcl] at h
    rw [rlFlushLine, hcl]
    simp [h]

theorem rlFlushLine_some (parse : Str → Option Json) (st : RLCore) (l : Str)
    (t : Str) (h : lineText parse l = some t) :
    rlFlushLine parse st l = rlEmitText st t := by
  cases hcl : classifyLine parse l with
  | skip => rw [lineText_of_skip parse l hcl] at h; simp at h
  | doneMark => rw [lineText_of_doneMark parse l hcl] at h; simp at h
  | evt e =>
    rw [lineText_of_evt parse l e hcl] at h
    rw [rlFlushLine, hcl]
    simp [h]


/-- Splitting `extractedTexts` across an append. -/
theorem extractedTexts_append (parse : Str → Option Json) (l1 l2 : List Str) :
    extractedTexts parse (l1 ++ l2)
      = extractedTexts parse l1 ++ extractedTexts parse l2 := by
  simp [extractedTexts, List.filterMap_append]

theorem extractedTexts_singleton_none (parse : Str → Option Json) (l : Str)
    (h : lineText parse l = none) : extractedTexts parse [l] = [] := by
  simp [extractedTexts, List.filterMap_cons, h]

theorem extractedTexts_singleton_some (parse : Str → Option Json) (l : Str)
    (t : Str) (h : lineText parse l = some t) :
    extractedTexts parse [l] = [t] := by
  simp [extractedTexts, List.filterMap_cons, h]

/-- Closed form of the whole lifecycle transcoder: a call with no
extracted text emits nothing at all; otherwise exactly the four preamble
events numbered from 0, one delta per fragment numbered from 4, and the
four closing events, with usage folded over the complete lines only. -/
theorem rlRun_eq (parse : Str → Option Json) (chunks : List Str) :
    rlRun parse chunks
      = (if extractedTexts parse (reassembleLines chunks) = [] then ([] : List RLOut)
         else
           rlPreamble 0
             ++ deltaSeq 4 (extractedTexts parse (reassembleLines chunks))
             ++ rlClosing (4 + (extractedTexts parse (reassembleLines chunks)).length)
                 (extractedTexts parse (reassembleLines chunks)).flatten
                 (usageFold parse zeroUsage (splitNl chunks.flatten).dropLast)) := by
  have hnil : ('\n' : Char) ∉ ([] : Str) := by simp
  have hreass : reassembleLines chunks
      = (splitNl chunks.flatten).dropLast
        ++ (if trimStr ((splitNl chunks.flatten).getLastD []) ≠ []
            then [(splitNl chunks.flatten).getLastD []] else []) := by
    rw [reassembleLines, reassembleMany_eq chunks [] hnil]
    simp
  rw [hreass, rlRun, rlFeedMany_eq parse chunks [] rlInit hnil]
  simp only [List.nil_append]
  by_cases hfr : trimStr ((splitNl chunks.flatten).getLastD []) ≠ []
  · rw [if_pos hfr, if_pos hfr, extractedTexts_append]
    cases hft : lineText parse ((splitNl chunks.flatten).getLastD []) with
    | none =>
      rw [extractedTexts_singleton_none parse _ hft, List.append_nil]
      cases hTL : extractedTexts parse (splitNl chunks.flatten).dropLast with
      | nil =>
        rw [rlSteps_unsent_none parse _ rlInit rfl hTL]
        dsimp only
        rw [rlFlushLine_none _ _ _ hft]
        dsimp only [rlInit]
        simp [hTL]
      | cons a as =>
        rw [rlSteps_unsent_some parse _ rlInit a as rfl hTL]
        dsimp only
        rw [rlFlushLine_none _ _ _ hft]
        dsimp only [rlInit]
        simp [hTL]
    | some t =>
      rw [extractedTexts_singleton_some parse _ t hft]
      cases hTL : extractedTexts parse (splitNl chunks.flatten).dropLast with
      | nil =>
        rw [rlSteps_unsent_none parse _ rlInit rfl hTL]
        dsimp only
        rw [rlFlushLine_some _ _ _ _ hft, rlEmitText]
        dsimp only [rlInit]
        simp [hTL, rlPreamble, rlClosing, deltaSeq]
      | cons a as =>
        rw [rlSteps_unsent_some parse _ rlInit a as rfl hTL]
        dsimp only
        rw [rlFlushLine_some _ _ _ _ hft, rlEmitText]
        dsimp only [rlInit]
        simp [hTL, rlPreamble, rlClosing, deltaSeq, deltaSeq_append,
          List.append_assoc]
        omega
  · rw [if_neg hfr, if_neg hfr, List.append_nil]
    cases hTL : extractedTexts parse (splitNl chunks.flatten).dropLast with
    | nil =>
      rw [rlSteps_unsent_none parse _ rlInit rfl hTL]
      dsimp only [rlInit]
      simp [hTL]
    | cons a as =>
      rw [rlSteps_unsent_some parse _ rlInit a as rfl hTL]
      dsimp only [rlInit]
      simp [hTL]

/-! ### Backend session driver (`sendAndStream`) -/

/-- One backend-facing operation performed by the driver, in order:
a `set_chat_message` POST carrying the prompt, a `stream_chat` GET, or a
`waitForAgentIdle` polling pause with its budget in milliseconds. -/
inductive BCall where
  | submit : Str → BCall
  | streamOpen : BCall
  | idleWait : Nat → BCall
deriving DecidableEq

/-- Oracle for one attempt: whether `set_chat_message` returns ok, and the
HTTP status `stream_chat` would answer (consulted only when the submit
succeeded). -/
structure Attempt where
  submitOk : Bool
  streamStatus : Nat
deriving DecidableEq

/-- How one `sendAndStream` call ends: an ok streaming response, a non-ok
non-busy response returned as-is, or one of the two thrown errors. -/
inductive SendOutcome where
  | streamed : Nat → SendOutcome
  | returnedError : Nat → SendOutcome
  | threwSendFailed : SendOutcome
  | threwBusy : SendOutcome
deriving DecidableEq

/-- `Response.ok`: status in the 200-299 range. -/
def statusOk (s : Nat) : Bool := 200 ≤ s && s < 300

/-- The retry loop of `sendAndStream`, with `fuel = maxRetries - attempt`
remaining loop iterations.  Each iteration: idle-wait when not the first
attempt, submit the prompt; a failed submit waits 15s and retries unless
this was the last attempt; then open the stream; ok streams, 409 loops,
anything else is returned immediately.  Falling off the loop throws the
busy error. -/
def sendAndStreamGo (o : Nat → Attempt) (p : Str) :
    Nat → Nat → List BCall × SendOutcome
  | 0, _ => ([], .threwBusy)
  | fuel + 1, attempt =>
    let pre : List BCall := if 0 < attempt then [.idleWait 30000] else []
    if (o attempt).submitOk then
      if statusOk (o attempt).streamStatus then
        (pre ++ [.submit p, .streamOpen], .streamed (o attempt).streamStatus)
      else if (o attempt).streamStatus = 409 then
        let r := sendAndStreamGo o p fuel (attempt + 1)
        (pre ++ [.submit p, .streamOpen] ++ r.1, r.2)
      else
        (pre ++ [.submit p, .streamOpen], .returnedError (o attempt).streamStatus)
    else
      if 0 < fuel then
        let r := sendAndStreamGo o p fuel (attempt + 1)
        (pre ++ [.submit p, .idleWait 15000] ++ r.1, r.2)
      else
        (pre ++ [.submit p], .threwSendFailed)

/-- `sendAndStream` with its default `maxRetries = 4`. -/
def sendAndStream (o : Nat → Attempt) (p : Str) : List BCall × SendOutcome :=
  sendAndStreamGo o p 4 0

def busyMsg : Str := "Rovo Dev agent remained busy after all retries".data
def sendFailMsg : Str := "Failed to send message to Rovo Dev after retries".data
def streamErrMsg (s : Nat) : Str :=
  "Rovo Dev stream_chat returned ".data ++ (Nat.repr s).data

/-- What the client receives from a completion handler. -/
inductive ClientResp where
  | proxyError : Nat → Str → ClientResp
  | streaming : ClientResp
deriving DecidableEq

/-- The prologue of `handleStreamingCompletion` (and its siblings): a
thrown driver error or a non-ok response becomes a 502 `proxy_error`
JSON body; an ok response is piped through the transcoder. -/
def handleOutcome : SendOutcome → ClientResp
  | .streamed _ => .streaming
  | .returnedError s => .proxyError 502 (streamErrMsg s)
  | .threwSendFailed => .proxyError 502 sendFailMsg
  | .threwBusy => .proxyError 502 busyMsg

/-! ### Request serialization queue (`enqueue`)

The queue chains each admitted thunk onto a promise chain:
`requestQueue = requestQueue.then(() => fn().then(resolve, reject)).catch(() => {})`.
A queued turn is observed as a `start` event, its backend calls in program
order, and a `settle` event carrying its success/failure outcome.  The
promise semantics of `.then` — a continuation runs only after the chained
promise settles, and the two-armed `then` plus the trailing `.catch` settle
each link regardless of the thunk's outcome — are captured by the
admissibility predicate below: each thunk's events occur exactly once and
in program order (its filtered subsequence is fixed), and thunk `i + 1`
starts only strictly after thunk `i` settles, whether or not it failed.
The scheduler is otherwise free to interleave events of different calls;
the theorems show no interleaving is actually admissible. -/

inductive QEvent where
  | start : Nat → QEvent
  | call : Nat → Nat → BCall → QEvent
  | settle : Nat → Bool → QEvent
deriving DecidableEq

/-- Which queued turn an event belongs to. -/
def QEvent.eidx : QEvent → Nat
  | .start i => i
  | .call i _ _ => i
  | .settle i _ => i

/-- The backend calls of turn `i`, tagged with their position. -/
def callEvents (i : Nat) : Nat → List BCall → List QEvent
  | _, [] => []
  | k, c :: cs => .call i k c :: callEvents i (k + 1) cs

/-- The full event sequence of one queued turn: start, its backend calls
in program order, then its settlement. -/
def thunkEvents (prog : Nat → List BCall × Bool) (i : Nat) : List QEvent :=
  .start i :: (callEvents i 0 (prog i).1 ++ [.settle i (prog i).2])

/-- Index of the first occurrence of `a` (the list's length if absent). -/
def posIn {α : Type} [DecidableEq α] : List α → α → Nat
  | [], _ => 0
  | x :: xs, a => if x = a then 0 else posIn xs a + 1

/-- A trace of `N` enqueued turns compatible with the promise-chain
semantics of `enqueue`: only events of these turns occur, each turn's
events occur exactly once in program order, and each turn starts strictly
after its predecessor settled (success or failure alike, thanks to the
two-armed `then` and the `.catch`). -/
def chainAdmissible (N : Nat) (prog : Nat → List BCall × Bool)
    (t : List QEvent) : Prop :=
  (∀ e ∈ t, e.eidx < N) ∧
  (∀ i, i < N → t.filter (fun e => e.eidx = i) = thunkEvents prog i) ∧
  (∀ i, i < N → i + 1 < N →
    posIn t (QEvent.settle i (prog i).2) < posIn t (QEvent.start (i + 1)))

theorem posIn_lt_length {α : Type} [DecidableEq α] (l : List α) (a : α)
    (h : a ∈ l) : posIn l a < l.length := by
  induction l with
  | nil => simp at h
  | cons x xs ih =>
    rw [posIn]
    by_cases hx : x = a
    · simp [hx]
    · rw [if_neg hx, List.length_cons]
      rw [List.mem_cons] at h
      rcases h with rfl | h
      · exact absurd rfl hx
      · exact Nat.succ_lt_succ (ih h)

theorem posIn_append_left {α : Type} [DecidableEq α] (u v : List α) (a : α)
    (h : a ∈ u) : posIn (u ++ v) a = posIn u a := by
  induction u with
  | nil => simp at h
  | cons x xs ih =>
    rw [List.cons_append, posIn, posIn]
    by_cases hx : x = a
    · rw [if_pos hx, if_pos hx]
    · rw [if_neg hx, if_neg hx]
      rw [List.mem_cons] at h
      rcases h with rfl | h
      · exact absurd rfl hx
      · rw [ih h]

theorem posIn_append_right {α : Type} [DecidableEq α] (u v : List α) (a : α)
    (h : a ∉ u) : posIn (u ++ v) a = u.length + posIn v a := by
  induction u with
  | nil => simp [posIn]
  | cons x xs ih =>
    have hx : x ≠ a := fun hxa => h (hxa ▸ List.mem_cons_self x xs)
    have h' : a ∉ xs := fun hm => h (List.mem_cons_of_mem _ hm)
    rw [List.cons_append, posIn, if_neg hx, ih h', List.length_cons]
    omega

theorem posIn_getElem {α : Type} [DecidableEq α] (l : List α)
    (hl : l.Nodup) (i : Nat) (h : i < l.length) : posIn l l[i] = i := by
  induction l generalizing i with
  | nil => simp at h
  | cons x xs ih =>
    cases i with
    | zero => simp [posIn]
    | succ n =>
      have hn : n < xs.length := by
        rw [List.length_cons] at h
        omega
      have hmem : xs[n] ∈ xs := List.getElem_mem hn
      have hx : x ≠ xs[n] := fun hxe => (List.nodup_cons.mp hl).1 (hxe ▸ hmem)
      have hgE : (x :: xs)[n + 1] = xs[n] := rfl
      rw [hgE, posIn, if_neg hx, ih (List.nodup_cons.mp hl).2 n hn]

theorem sublist_posIn_le {α : Type} [DecidableEq α] {l t : List α}
    (h : List.Sublist l t) (hn : t.Nodup) :
    ∀ {a b : α}, a ∈ l → b ∈ l → posIn l a ≤ posIn l b →
      posIn t a ≤ posIn t b := by
  induction h with
  | slnil => intro a b ha _ _; simp at ha
  | cons x h' ih =>
    intro a b ha hb hab
    have hn' := (List.nodup_cons.mp hn).2
    have hxn := (List.nodup_cons.mp hn).1
    have hat := h'.subset ha
    have hbt := h'.subset hb
    have hxa : x ≠ a := fun hxa => hxn (hxa ▸ hat)
    have hxb : x ≠ b := fun hxb => hxn (hxb ▸ hbt)
    rw [posIn, if_neg hxa, posIn, if_neg hxb]
    exact Nat.succ_le_succ (ih hn' ha hb hab)
  | cons₂ x h' ih =>
    intro a b ha hb hab
    have hn' := (List.nodup_cons.mp hn).2
    have hxn := (List.nodup_cons.mp hn).1
    by_cases hxa : x = a
    · subst hxa
      rw [posIn, if_pos rfl]
      exact Nat.zero_le _
    · have ha' := (List.mem_cons.mp ha).resolve_left (fun h1 => hxa h1.symm)
      by_cases hxb : x = b
      · subst hxb
        rw [posIn, if_neg hxa, posIn, if_pos rfl] at hab
        omega
      · have hb' := (List.mem_cons.mp hb).resolve_left (fun h1 => hxb h1.symm)
        rw [posIn, if_neg hxa, posIn, if_neg hxb] at hab ⊢
        exact Nat.succ_le_succ (ih hn' ha' hb' (Nat.le_of_succ_le_succ hab))

/-! Structure of one turn's event list. -/

theorem callEvents_mem (i : Nat) :
    ∀ (k : Nat) (cs : List BCall) (e : QEvent), e ∈ callEvents i k cs →
      ∃ k' c, k ≤ k' ∧ e = QEvent.call i k' c := by
  intro k cs
  induction cs generalizing k with
  | nil => intro e he; simp [callEvents] at he
  | cons c cs ih =>
    intro e he
    rw [callEvents, List.mem_cons] at he
    rcases he with rfl | he
    · exact ⟨k, c, Nat.le_refl k, rfl⟩
    · obtain ⟨k', c', hk, rfl⟩ := ih (k + 1) e he
      exact ⟨k', c', by omega, rfl⟩

theorem callEvents_nodup (i : Nat) :
    ∀ (k : Nat) (cs : List BCall), (callEvents i k cs).Nodup := by
  intro k cs
  induction cs generalizing k with
  | nil => simp [callEvents]
  | cons c cs ih =>
    rw [callEvents, List.nodup_cons]
    refine ⟨?_, ih (k + 1)⟩
    intro hmem
    obtain ⟨k', c', hk, heq⟩ := callEvents_mem i (k + 1) cs _ hmem
    have : k = k' := by injection heq
    omega

theorem eidx_mem_thunkEvents (prog : Nat → List BCall × Bool) (i : Nat) :
    ∀ e ∈ thunkEvents prog i, e.eidx = i := by
  intro e he
  rw [thunkEvents, List.mem_cons] at he
  rcases he with rfl | he
  · rfl
  · rcases List.mem_append.mp he with h1 | h1
    · obtain ⟨k', c', -, rfl⟩ := callEvents_mem i 0 _ e h1
      rfl
    · rw [List.mem_singleton] at h1
      subst h1
      rfl

theorem settle_not_mem_callEvents (prog : Nat → List BCall × Bool)
    (i j : Nat) (b : Bool) :
    ∀ (k : Nat) (cs : List BCall), QEvent.settle j b ∉ callEvents i k cs := by
  intro k cs hmem
  obtain ⟨k', c', -, heq⟩ := callEvents_mem i k cs _ hmem
  exact QEvent.noConfusion heq

theorem start_not_mem_callEvents (i j : Nat) :
    ∀ (k : Nat) (cs : List BCall), QEvent.start j ∉ callEvents i k cs := by
  intro k cs hmem
  obtain ⟨k', c', -, heq⟩ := callEvents_mem i k cs _ hmem
  exact QEvent.noConfusion heq

theorem thunkEvents_nodup (prog : Nat → List BCall × Bool) (i : Nat) :
    (thunkEvents prog i).Nodup := by
  rw [thunkEvents, List.nodup_cons]
  constructor
  · intro hmem
    rcases List.mem_append.mp hmem with h1 | h1
    · exact start_not_mem_callEvents i i 0 _ h1
    · rw [List.mem_singleton] at h1
      exact QEvent.noConfusion h1
  · rw [List.nodup_append]
    refine ⟨callEvents_nodup i 0 _, List.nodup_singleton _, ?_⟩
    intro e he1 he2
    rw [List.mem_singleton] at he2
    subst he2
    exact settle_not_mem_callEvents prog i i _ 0 _ he1

/-! Consequences of admissibility. -/

theorem chain_mem_of_thunk {N : Nat} {prog : Nat → List BCall × Bool}
    {t : List QEvent} (h : chainAdmissible N prog t) {i : Nat} (hi : i < N)
    {e : QEvent} (he : e ∈ thunkEvents prog i) : e ∈ t := by
  have := h.2.1 i hi
  have hmem : e ∈ t.filter (fun x => x.eidx = i) := this ▸ he
  exact (List.mem_filter.mp hmem).1

theorem chain_nodup {N : Nat} {prog : Nat → List BCall × Bool}
    {t : List QEvent} (h : chainAdmissible N prog t) : t.Nodup := by
  rw [List.nodup_iff_count_le_one]
  intro e
  by_cases he : e ∈ t
  · have hidx := h.1 e he
    have hfe : (t.filter (fun x => x.eidx = e.eidx)).count e = t.count e :=
      List.count_filter (by simp)
    rw [← hfe, h.2.1 e.eidx hidx]
    exact List.nodup_iff_count_le_one.mp (thunkEvents_nodup prog e.eidx) e
  · rw [List.count_eq_zero_of_not_mem he]
    omega

theorem chain_mem_own_thunk {N : Nat} {prog : Nat → List BCall × Bool}
    {t : List QEvent} (h : chainAdmissible N prog t) {e : QEvent}
    (he : e ∈ t) : e ∈ thunkEvents prog e.eidx := by
  have hidx := h.1 e he
  have hmem : e ∈ t.filter (fun x => x.eidx = e.eidx) :=
    List.mem_filter.mpr ⟨he, by simp⟩
  rw [h.2.1 e.eidx hidx] at hmem
  exact hmem

theorem chain_start_le {N : Nat} {prog : Nat → List BCall × Bool}
    {t : List QEvent} (h : chainAdmissible N prog t) {i : Nat} (hi : i < N)
    {e : QEvent} (he : e ∈ thunkEvents prog i) :
    posIn t (QEvent.start i) ≤ posIn t e := by
  have hfilter := h.2.1 i hi
  have hsub : List.Sublist (t.filter (fun x => x.eidx = i)) t :=
      List.filter_sublist t
  rw [hfilter] at hsub
  refine sublist_posIn_le hsub (chain_nodup h) ?_ he ?_
  · rw [thunkEvents]; exact List.mem_cons_self _ _
  · rw [thunkEvents, posIn, if_pos rfl]
    exact Nat.zero_le _

theorem chain_le_settle {N : Nat} {prog : Nat → List BCall × Bool}
    {t : List QEvent} (h : chainAdmissible N prog t) {i : Nat} (hi : i < N)
    {e : QEvent} (he : e ∈ thunkEvents prog i) :
    posIn t e ≤ posIn t (QEvent.settle i (prog i).2) := by
  have hfilter := h.2.1 i hi
  have hsub : List.Sublist (t.filter (fun x => x.eidx = i)) t :=
      List.filter_sublist t
  rw [hfilter] at hsub
  have hsettle : QEvent.settle i (prog i).2 ∈ thunkEvents prog i := by
    rw [thunkEvents]
    exact List.mem_cons_of_mem _ (List.mem_append_right _ (List.mem_singleton.mpr rfl))
  refine sublist_posIn_le hsub (chain_nodup h) he hsettle ?_
  have hsne : QEvent.settle i (prog i).2 ∉
      (QEvent.start i :: callEvents i 0 (prog i).1) := by
    intro hmem
    rcases List.mem_cons.mp hmem with h1 | h1
    · exact QEvent.noConfusion h1
    · exact settle_not_mem_callEvents prog i i _ 0 _ h1
  have hter : thunkEvents prog i
      = (QEvent.start i :: callEvents i 0 (prog i).1)
        ++ [QEvent.settle i (prog i).2] := by
    rw [thunkEvents, List.cons_append]
  rw [hter, posIn_append_right _ _ _ hsne]
  rcases List.mem_append.mp (hter ▸ he) with h1 | h1
  · have hlt := posIn_lt_length _ _ h1
    have hz : posIn [QEvent.settle i (prog i).2] (QEvent.settle i (prog i).2)
        = 0 := by
      rw [posIn, if_pos rfl]
    rw [posIn_append_left _ _ _ h1, hz]
    omega
  · rw [List.mem_singleton] at h1
    subst h1
    rw [posIn_append_right _ _ _ hsne]

theorem chain_settle_lt_start {N : Nat} {prog : Nat → List BCall × Bool}
    {t : List QEvent} (h : chainAdmissible N prog t) :
    ∀ (d i : Nat), i + d + 1 < N →
      posIn t (QEvent.settle i (prog i).2) < posIn t (QEvent.start (i + d + 1)) := by
  intro d
  induction d with
  | zero => intro i hi; exact h.2.2 i (by omega) hi
  | succ d ih =>
    intro i hi
    have h1 : posIn t (QEvent.settle i (prog i).2)
        < posIn t (QEvent.start (i + d + 1)) := ih i (by omega)
    have hstart : QEvent.start (i + d + 1) ∈ thunkEvents prog (i + d + 1) := by
      rw [thunkEvents]; exact List.mem_cons_self _ _
    have h2 : posIn t (QEvent.start (i + d + 1))
        ≤ posIn t (QEvent.settle (i + d + 1) (prog (i + d + 1)).2) :=
      chain_le_settle h (by omega) hstart
    have h3 : posIn t (QEvent.settle (i + d + 1) (prog (i + d + 1)).2)
        < posIn t (QEvent.start (i + d + 1 + 1)) :=
      h.2.2 (i + d + 1) (by omega) (by omega)
    have harith : i + (d + 1) + 1 = i + d + 1 + 1 := by omega
    rw [harith]
    omega

theorem chain_sorted {N : Nat} {prog : Nat → List BCall × Bool}
    {t : List QEvent} (h : chainAdmissible N prog t) :
    t.Pairwise (fun a b => a.eidx ≤ b.eidx) := by
  rw [List.pairwise_iff_getElem]
  intro i j hi hj hij
  by_contra hlt
  push_neg at hlt
  have hnd := chain_nodup h
  have hai : t[i] ∈ t := List.getElem_mem hi
  have haj : t[j] ∈ t := List.getElem_mem hj
  have hpi : posIn t t[i] = i := posIn_getElem t hnd i hi
  have hpj : posIn t t[j] = j := posIn_getElem t hnd j hj
  have hmi : t[i] ∈ thunkEvents prog t[i].eidx := chain_mem_own_thunk h hai
  have hmj : t[j] ∈ thunkEvents prog t[j].eidx := chain_mem_own_thunk h haj
  have h1 : posIn t t[j] ≤ posIn t (QEvent.settle t[j].eidx (prog t[j].eidx).2) :=
    chain_le_settle h (h.1 _ haj) hmj
  have harith : t[j].eidx + (t[i].eidx - t[j].eidx - 1) + 1 = t[i].eidx := by
    omega
  have h2 : posIn t (QEvent.settle t[j].eidx (prog t[j].eidx).2)
      < posIn t (QEvent.start t[i].eidx) := by
    have := chain_settle_lt_start h (t[i].eidx - t[j].eidx - 1) t[j].eidx
      (by rw [harith]; exact h.1 _ hai)
    rw [harith] at this
    exact this
  have h3 : posIn t (QEvent.start t[i].eidx) ≤ posIn t t[i] :=
    chain_start_le h (h.1 _ hai) hmi
  omega

/-! Sorted-by-key decomposition. -/

theorem sorted_split_max {α : Type} (key : α → Nat) (N : Nat) :
    ∀ t : List α, (∀ e ∈ t, key e < N + 1) →
      t.Pairwise (fun a b => key a ≤ key b) →
      t = t.filter (fun e => key e < N) ++ t.filter (fun e => key e = N) := by
  intro t
  induction t with
  | nil => intro _ _; rfl
  | cons e t' ih =>
    intro hbound hsort
    have hpc := List.pairwise_cons.mp hsort
    by_cases hk : key e = N
    · have hall : ∀ b ∈ e :: t', key b = N := by
        intro b hb
        rcases List.mem_cons.mp hb with rfl | hb'
        · exact hk
        · have h1 := hpc.1 b hb'
          have h2 := hbound b (List.mem_cons_of_mem _ hb')
          omega
      have hfl : List.filter (fun x => decide (key x < N)) (e :: t') = [] := by
        rw [List.filter_eq_nil_iff]
        intro a ha
        have := hall a ha
        simp [this]
      have hfr : List.filter (fun x => decide (key x = N)) (e :: t') = e :: t' := by
        rw [List.filter_eq_self]
        intro a ha
        simp [hall a ha]
      rw [hfl, hfr, List.nil_append]
    · have hke : key e < N := by
        have := hbound e (List.mem_cons_self _ _)
        omega
      have hfl : List.filter (fun x => decide (key x < N)) (e :: t')
          = e :: List.filter (fun x => decide (key x < N)) t' :=
        List.filter_cons_of_pos (by simp [hke])
      have hfr : List.filter (fun x => decide (key x = N)) (e :: t')
          = List.filter (fun x => decide (key x = N)) t' :=
        List.filter_cons_of_neg (by simp [hk])
      rw [hfl, hfr, List.cons_append]
      exact congrArg (e :: ·)
        (ih (fun b hb => hbound b (List.mem_cons_of_mem _ hb)) hpc.2)

theorem sorted_key_flatten {α : Type} (key : α → Nat) :
    ∀ (N : Nat) (t : List α), (∀ e ∈ t, key e < N) →
      t.Pairwise (fun a b => key a ≤ key b) →
      t = (List.range N).flatMap (fun i => t.filter (fun e => key e = i)) := by
  intro N
  induction N with
  | zero =>
    intro t hbound _
    cases t with
    | nil => rfl
    | cons e t' => exact absurd (hbound e (List.mem_cons_self _ _)) (by omega)
  | succ N ih =>
    intro t hbound hsort
    have hsplit := sorted_split_max key N t hbound hsort
    have hAbound : ∀ e ∈ t.filter (fun e => key e < N), key e < N := by
      intro e he
      have := List.of_mem_filter he
      simpa using this
    have hAsort := hsort.filter (fun e => decide (key e < N))
    have hA := ih (t.filter (fun e => key e < N)) hAbound hAsort
    have hinner : ∀ i, i < N →
        (t.filter (fun e => key e < N)).filter (fun e => key e = i)
          = t.filter (fun e => key e = i) := by
      intro i hi
      rw [List.filter_filter]
      apply List.filter_congr
      intro a ha
      by_cases hk : key a = i
      · have h2 : key a < N := by omega
        simp [hk, h2, hi]
      · simp [hk]
    have hmapeq : (List.range N).flatMap
          (fun i => (t.filter (fun e => key e < N)).filter (fun e => key e = i))
        = (List.range N).flatMap (fun i => t.filter (fun e => key e = i)) := by
      rw [List.flatMap, List.flatMap]
      exact congrArg List.flatten
        (List.map_congr_left fun i hi => hinner i (List.mem_range.mp hi))
    rw [List.range_succ, List.flatMap_append]
    have hsingle : ([N] : List Nat).flatMap (fun i => t.filter (fun e => key e = i))
        = t.filter (fun e => key e = N) := by
      simp
    rw [hsingle, ← hmapeq, ← hA]
    exact hsplit

/-- Main serialization theorem: the only trace the promise chain admits is
the strictly sequential FIFO concatenation of the queued turns' events —
no interleaving, no overlap, no skipping. -/
theorem chain_flatten {N : Nat} {prog : Nat → List BCall × Bool}
    {t : List QEvent} (h : chainAdmissible N prog t) :
    t = (List.range N).flatMap (thunkEvents prog) := by
  have h1 := sorted_key_flatten QEvent.eidx N t h.1 (chain_sorted h)
  rw [h1, List.flatMap, List.flatMap]
  exact congrArg List.flatten
    (List.map_congr_left fun i hi => h.2.1 i (List.mem_range.mp hi))

/-- After any turn settles (also a failed one), the next queued turn's
events still occur, contiguously and strictly later in the trace. -/
theorem chain_next_runs {N : Nat} {prog : Nat → List BCall × Bool}
    {t : List QEvent} (h : chainAdmissible N prog t) {i : Nat}
    (hi : i + 1 < N) :
    ∃ u v, t = u ++ thunkEvents prog (i + 1) ++ v
      ∧ QEvent.settle i (prog i).2 ∈ u := by
  have hfl := chain_flatten h
  obtain ⟨m, hm⟩ : ∃ m, N = (i + 2) + m := ⟨N - (i + 2), by omega⟩
  refine ⟨(List.range (i + 1)).flatMap (thunkEvents prog),
    ((List.range m).map ((i + 2) + ·)).flatMap (thunkEvents prog), ?_, ?_⟩
  · rw [hfl, hm, List.range_add, List.flatMap_append]
    have : List.range (i + 2) = List.range (i + 1) ++ [i + 1] :=
      List.range_succ (i + 1)
    rw [this, List.flatMap_append]
    simp [List.append_assoc]
  · rw [List.mem_flatMap]
    refine ⟨i, List.mem_range.mpr (by omega), ?_⟩
    rw [thunkEvents]
    exact List.mem_cons_of_mem _
      (List.mem_append_right _ (List.mem_singleton.mpr rfl))

/-! ### Counting lemmas for the chat-completions transcoder -/

theorem processSSELines_cons (parse : Str → Option Json) (m : CCMeta)
    (d : Bool) (l : Str) (ls : List Str) :
    processSSELines parse m (l :: ls) d
      = ((processSSELine parse m d l).1
           ++ (processSSELines parse m ls (processSSELine parse m d l).2).1,
         (processSSELines parse m ls (processSSELine parse m d l).2).2) :=
  rfl

theorem processSSELine_skip (parse : Str → Option Json) (m : CCMeta)
    (d : Bool) (l : Str) (h : classifyLine parse l = LineClass.skip) :
    processSSELine parse m d l = ([], d) := by
  rw [processSSELine, h]

theorem processSSELine_doneMark_false (parse : Str → Option Json) (m : CCMeta)
    (l : Str) (h : classifyLine parse l = LineClass.doneMark) :
    processSSELine parse m false l = ([CCOut.done], true) := by
  rw [processSSELine, h]
  simp

theorem processSSELine_doneMark_true (parse : Str → Option Json) (m : CCMeta)
    (l : Str) (h : classifyLine parse l = LineClass.doneMark) :
    processSSELine parse m true l = ([], true) := by
  rw [processSSELine, h]
  simp

theorem processSSELine_evt_true (parse : Str → Option Json) (m : CCMeta)
    (l : Str) (e : Json) (h : classifyLine parse l = LineClass.evt e) :
    processSSELine parse m true l
      = ((match truthyText (extractText e) with
          | some s => [CCOut.chunk m (some s) none]
          | none => []), true) := by
  rw [processSSELine, h]
  simp

theorem processSSELine_evt_false (parse : Str → Option Json) (m : CCMeta)
    (l : Str) (e : Json) (h : classifyLine parse l = LineClass.evt e) :
    processSSELine parse m false l
      = (if isStreamEnd e then
           ((match truthyText (extractText e) with
             | some s => [CCOut.chunk m (some s) none]
             | none => []) ++ [stopChunk m, CCOut.done], true)
         else
           ((match truthyText (extractText e) with
             | some s => [CCOut.chunk m (some s) none]
             | none => []), false)) := by
  rw [processSSELine, h]
  simp

theorem processSSELine_true (parse : Str → Option Json) (m : CCMeta) (l : Str) :
    (processSSELine parse m true l).2 = true
    ∧ (processSSELine parse m true l).1.count CCOut.done = 0
    ∧ (processSSELine parse m true l).1.count (stopChunk m) = 0 := by
  cases hcl : classifyLine parse l with
  | skip => rw [processSSELine_skip parse m true l hcl]; simp
  | doneMark => rw [processSSELine_doneMark_true parse m l hcl]; simp
  | evt e =>
    rw [processSSELine_evt_true parse m l e hcl]
    cases htt : truthyText (extractText e) with
    | none => simp [htt]
    | some s => exact ⟨rfl, by simp [htt], by simp [htt, stopChunk]⟩

theorem processSSELines_true (parse : Str → Option Json) (m : CCMeta) :
    ∀ lines : List Str,
    (processSSELines parse m lines true).2 = true
    ∧ (processSSELines parse m lines true).1.count CCOut.done = 0
    ∧ (processSSELines parse m lines true).1.count (stopChunk m) = 0 := by
  intro lines
  induction lines with
  | nil => simp [processSSELines]
  | cons l ls ih =>
    obtain ⟨h1, h2, h3⟩ := processSSELine_true parse m l
    rw [processSSELines_cons, h1]
    refine ⟨ih.1, ?_, ?_⟩
    · rw [List.count_append, h2, ih.2.1]
    · rw [List.count_append, h3, ih.2.2]

theorem processSSELines_false_count (parse : Str → Option Json) (m : CCMeta) :
    ∀ lines : List Str,
    (processSSELines parse m lines false).1.count CCOut.done
        = (if (processSSELines parse m lines false).2 then 1 else 0)
    ∧ (processSSELines parse m lines false).1.count (stopChunk m)
        ≤ (processSSELines parse m lines false).1.count CCOut.done
    ∧ ((∀ l ∈ lines, classifyLine parse l ≠ LineClass.doneMark) →
        (processSSELines parse m lines false).1.count (stopChunk m)
          = (processSSELines parse m lines false).1.count CCOut.done) := by
  intro lines
  induction lines with
  | nil => simp [processSSELines]
  | cons l ls ih =>
    rw [processSSELines_cons]
    cases hcl : classifyLine parse l with
    | skip =>
      rw [processSSELine_skip parse m false l hcl]
      refine ⟨by simpa using ih.1, by simpa using ih.2.1, ?_⟩
      intro hnd
      have := ih.2.2 (fun x hx => hnd x (List.mem_cons_of_mem _ hx))
      simpa using this
    | doneMark =>
      rw [processSSELine_doneMark_false parse m l hcl]
      obtain ⟨g1, g2, g3⟩ := processSSELines_true parse m ls
      rw [g1]
      refine ⟨?_, ?_, ?_⟩
      · rw [List.count_append, g2]
        simp
      · rw [List.count_append, List.count_append, g2, g3]
        simp [stopChunk]
      · intro hnd
        exact absurd hcl (hnd l (List.mem_cons_self _ _))
    | evt e =>
      rw [processSSELine_evt_false parse m l e hcl]
      by_cases hend : isStreamEnd e = true
      · rw [if_pos hend]
        dsimp only
        obtain ⟨g1, g2, g3⟩ := processSSELines_true parse m ls
        rw [g1]
        have g3' : List.count (CCOut.chunk m none (some "stop".data))
            (processSSELines parse m ls true).1 = 0 := by
          simpa [stopChunk] using g3
        cases htt : truthyText (extractText e) with
        | none =>
          refine ⟨?_, ?_, fun _ => ?_⟩ <;>
            simp [htt, List.count_append, g2, g3', stopChunk]
        | some s =>
          refine ⟨?_, ?_, fun _ => ?_⟩ <;>
            simp [htt, List.count_append, g2, g3', stopChunk]
      · rw [if_neg hend]
        dsimp only
        cases htt : truthyText (extractText e) with
        | none =>
          refine ⟨?_, ?_, ?_⟩
          · simpa [htt, List.count_append] using ih.1
          · simpa [htt, List.count_append] using ih.2.1
          · intro hnd
            have := ih.2.2 (fun x hx => hnd x (List.mem_cons_of_mem _ hx))
            simpa [htt, List.count_append] using this
        | some s =>
          refine ⟨?_, ?_, ?_⟩
          · simpa [htt, List.count_append] using ih.1
          · simpa [htt, List.count_append, stopChunk] using ih.2.1
          · intro hnd
            have := ih.2.2 (fun x hx => hnd x (List.mem_cons_of_mem _ hx))
            simpa [htt, List.count_append, stopChunk] using this

/-- The safety-net guarantees of `ccRunLines`: the `[DONE]` terminator is
emitted exactly once, the stop chunk at most once, and exactly once when
no backend line is a literal `data: [DONE]`. -/
theorem ccRunLines_counts (parse : Str → Option Json) (m : CCMeta)
    (lines : List Str) :
    (ccRunLines parse m lines).count CCOut.done = 1
    ∧ (ccRunLines parse m lines).count (stopChunk m) ≤ 1
    ∧ ((∀ l ∈ lines, classifyLine parse l ≠ LineClass.doneMark) →
       (ccRunLines parse m lines).count (stopChunk m) = 1) := by
  obtain ⟨h1, h2, h3⟩ := processSSELines_false_count parse m lines
  rw [ccRunLines]
  cases hd : (processSSELines parse m lines false).2 with
  | true =>
    rw [hd] at h1
    simp only [if_pos] at h1
    simp only [if_pos, List.append_nil]
    refine ⟨h1, by omega, fun hnd => ?_⟩
    rw [h3 hnd, h1]
  | false =>
    rw [hd] at h1
    simp only [Bool.false_eq_true, if_false] at h1
    have hstop0 : (processSSELines parse m lines false).1.count (stopChunk m)
        = 0 := by omega
    simp only [Bool.false_eq_true, if_false]
    have hstop0' : List.count (CCOut.chunk m none (some "stop".data))
        (processSSELines parse m lines false).1 = 0 := by
      simpa [stopChunk] using hstop0
    refine ⟨?_, ?_, fun _ => ?_⟩
    · simp [List.count_append, h1, stopChunk]
    · simp [List.count_append, hstop0', stopChunk]
    · simp [List.count_append, hstop0', stopChunk]

/-! ### Non-empty-delta and post-terminator lemmas -/

theorem lineText_ne_nil (parse : Str → Option Json) (l : Str) (s : Str)
    (h : lineText parse l = some s) : s ≠ [] := by
  cases hcl : classifyLine parse l with
  | skip => rw [lineText_of_skip parse l hcl] at h; simp at h
  | doneMark => rw [lineText_of_doneMark parse l hcl] at h; simp at h
  | evt e =>
    rw [lineText_of_evt parse l e hcl] at h
    exact truthyText_ne_nil h

theorem processSSELine_delta_mem (parse : Str → Option Json) (m : CCMeta)
    (d : Bool) (l : Str) (s : Str)
    (h : CCOut.chunk m (some s) none ∈ (processSSELine parse m d l).1) :
    ∃ e, classifyLine parse l = LineClass.evt e
      ∧ truthyText (extractText e) = some s := by
  cases hcl : classifyLine parse l with
  | skip => rw [processSSELine_skip parse m d l hcl] at h; simp at h
  | doneMark =>
    cases d
    · rw [processSSELine_doneMark_false parse m l hcl] at h
      simp at h
    · rw [processSSELine_doneMark_true parse m l hcl] at h
      simp at h
  | evt e =>
    refine ⟨e, rfl, ?_⟩
    cases d
    · rw [processSSELine_evt_false parse m l e hcl] at h
      cases htt : truthyText (extractText e) with
      | none =>
        by_cases hend : isStreamEnd e = true
        · rw [if_pos hend] at h
          simp only [htt] at h
          simp [stopChunk] at h
        · rw [if_neg hend] at h
          simp only [htt] at h
          simp at h
      | some s2 =>
        by_cases hend : isStreamEnd e = true
        · rw [if_pos hend] at h
          simp only [htt] at h
          simp [stopChunk] at h
          simp [h]
        · rw [if_neg hend] at h
          simp only [htt] at h
          simp at h
          simp [h]
    · rw [processSSELine_evt_true parse m l e hcl] at h
      cases htt : truthyText (extractText e) with
      | none => simp only [htt] at h; simp at h
      | some s2 =>
        simp only [htt] at h
        simp at h
        simp [h]

theorem processSSELines_delta_ne_nil (parse : Str → Option Json) (m : CCMeta) :
    ∀ (lines : List Str) (d : Bool) (s : Str),
      CCOut.chunk m (some s) none ∈ (processSSELines parse m lines d).1 →
      s ≠ [] := by
  intro lines
  induction lines with
  | nil => intro d s h; simp [processSSELines] at h
  | cons l ls ih =>
    intro d s h
    rw [processSSELines_cons] at h
    rcases List.mem_append.mp h with h1 | h1
    · obtain ⟨e, -, htt⟩ := processSSELine_delta_mem parse m d l s h1
      exact truthyText_ne_nil htt
    · exact ih _ s h1

theorem deltaSeq_mem (s : Str) :
    ∀ (n k : Nat) (ts : List Str), RLOut.outputTextDelta n s ∈ deltaSeq k ts →
      s ∈ ts := by
  intro n k ts
  induction ts generalizing k with
  | nil => intro h; simp [deltaSeq] at h
  | cons t ts ih =>
    intro h
    rw [deltaSeq, List.mem_cons] at h
    rcases h with h | h
    · simp only [RLOut.outputTextDelta.injEq] at h
      rw [h.2]
      exact List.mem_cons_self _ _
    · exact List.mem_cons_of_mem _ (ih (k + 1) h)

theorem extractedTexts_ne_nil (parse : Str → Option Json) (lines : List Str)
    (s : Str) (h : s ∈ extractedTexts parse lines) : s ≠ [] := by
  rw [extractedTexts] at h
  obtain ⟨l, -, hl⟩ := List.mem_filterMap.mp h
  exact lineText_ne_nil parse l s hl

theorem rlRun_delta_ne_nil (parse : Str → Option Json) (chunks : List Str)
    (n : Nat) (s : Str) (h : RLOut.outputTextDelta n s ∈ rlRun parse chunks) :
    s ≠ [] := by
  rw [rlRun_eq] at h
  by_cases hts : extractedTexts parse (reassembleLines chunks) = []
  · rw [if_pos hts] at h
    simp at h
  · rw [if_neg hts] at h
    rcases List.mem_append.mp h with h1 | h1
    · rcases List.mem_append.mp h1 with h2 | h2
      · simp [rlPreamble] at h2
      · exact extractedTexts_ne_nil parse _ s (deltaSeq_mem s n 4 _ h2)
    · simp [rlClosing] at h1

/-- A predicate picking out `response.completed` events. -/
def isCompletedB : RLOut → Bool
  | .completed _ _ _ => true
  | _ => false

theorem deltaSeq_countP_completed :
    ∀ (n : Nat) (ts : List Str), (deltaSeq n ts).countP isCompletedB = 0 := by
  intro n ts
  induction ts generalizing n with
  | nil => simp [deltaSeq]
  | cons t ts ih =>
    rw [deltaSeq, List.countP_cons]
    rw [ih (n + 1)]
    simp [isCompletedB]

theorem processSSELine_true_evt_some (parse : Str → Option Json) (m : CCMeta)
    (l : Str) (e : Json) (s : Str)
    (hc : classifyLine parse l = LineClass.evt e)
    (ht : truthyText (extractText e) = some s) :
    processSSELine parse m true l = ([CCOut.chunk m (some s) none], true) := by
  rw [processSSELine_evt_true parse m l e hc]
  simp [ht]

instance chainAdmissibleDecidable (N : Nat) (prog : Nat → List BCall × Bool)
    (t : List QEvent) : Decidable (chainAdmissible N prog t) := by
  unfold chainAdmissible
  infer_instance

/-! ### Concrete fixtures used by witnesses -/

/-- A parse oracle that parses nothing (malformed payloads). -/
def p0 : Str → Option Json := fun _ => none

def m0 : CCMeta := ⟨"chatcmpl-rovodev-w".data, 0, "rovodev-auto".data⟩

def j5a : Str :=
  "\x7b\"event_kind\":\"part_delta\",\"delta\":\x7b\"part_delta_kind\":\"text\",\"content_delta\":\"Hel\"\x7d\x7d".data
def j5b : Str :=
  "\x7b\"event_kind\":\"part_delta\",\"delta\":\x7b\"part_delta_kind\":\"text\",\"content_delta\":\"lo\"\x7d\x7d".data
def j5c : Str := "\x7b\"input_tokens\":3,\"output_tokens\":2\x7d".data

def e5a : Json :=
  .obj [(keyEventKind, .str "part_delta".data),
        (keyDelta, .obj [(keyPartDeltaKind, .str "text".data),
                         (keyContentDelta, .str "Hel".data)])]
def e5b : Json :=
  .obj [(keyEventKind, .str "part_delta".data),
        (keyDelta, .obj [(keyPartDeltaKind, .str "text".data),
                         (keyContentDelta, .str "lo".data)])]
def e5c : Json :=
  .obj [(keyInputTokens, .num 3), (keyOutputTokens, .num 2)]

/-- `JSON.parse` restricted to the three payloads of the C5 scenario. -/
def parse5 : Str → Option Json := fun s =>
  if s = j5a then some e5a
  else if s = j5b then some e5b
  else if s = j5c then some e5c
  else none

def l5a : Str := "data: ".data ++ j5a
def l5b : Str := "data: ".data ++ j5b
def l5c : Str := "data: ".data ++ j5c
def body5 : Str := l5a ++ "\n".data ++ l5b ++ "\n".data ++ l5c ++ "\n".data

/-! ### The claims -/

/-- C1: for every admitted sequence of N queued calls, any trace
compatible with the promise-chain semantics of `enqueue` equals the
strictly sequential FIFO concatenation of the turns' events: submits and
stream-opens appear in submission order, at most one turn is in flight at
any instant, and each queued thunk fully settles before the next
starts. -/
theorem c1_queue_serializes_fifo (N : Nat) (prog : Nat → List BCall × Bool)
    (t : List QEvent) (h : chainAdmissible N prog t) :
    t = (List.range N).flatMap (thunkEvents prog) :=
  chain_flatten h

def prog2 : Nat → List BCall × Bool := fun i =>
  if i = 0 then ([BCall.submit "a".data, BCall.streamOpen], true)
  else ([BCall.submit "b".data, BCall.streamOpen], true)

def t2 : List QEvent :=
  [.start 0, .call 0 0 (.submit "a".data), .call 0 1 .streamOpen,
   .settle 0 true,
   .start 1, .call 1 0 (.submit "b".data), .call 1 1 .streamOpen,
   .settle 1 true]

/-- Witness for C1 at a concrete two-call trace. -/
theorem c1_witness :
    chainAdmissible 2 prog2 t2
    ∧ t2 = (List.range 2).flatMap (thunkEvents prog2) :=
  ⟨by decide, c1_queue_serializes_fifo 2 prog2 t2 (by decide)⟩

/-- C2 counterexample: with the backend body `data: [DONE]` the
chat-completions transcoder forwards the terminator without any
stop-reason chunk, so the terminal *pair* is emitted zero times; and a
backend stream with no text yields no `response.completed` event at all
in response-lifecycle mode. -/
theorem c2_counterexample :
    (ccRun p0 m0 [("data: [DONE]\n").data]).count (stopChunk m0) = 0
    ∧ (ccRun p0 m0 [("data: [DONE]\n").data]).count CCOut.done = 1
    ∧ (rlRun p0 []).countP isCompletedB = 0 :=
  ⟨rfl, rfl, rfl⟩

/-- C2 (amended): per call, the chat-completions transcoder emits the
`[DONE]` terminator exactly once and the stop-reason chunk at most once
— exactly once whenever the backend itself never sends a literal
`data: [DONE]` line; the lifecycle transcoder emits `response.completed`
at most once, and exactly once iff at least one text fragment was
extracted. -/
theorem c2_terminal_emission (parse : Str → Option Json) (m : CCMeta)
    (chunks : List Str) :
    (ccRun parse m chunks).count CCOut.done = 1
    ∧ (ccRun parse m chunks).count (stopChunk m) ≤ 1
    ∧ ((∀ l ∈ reassembleLines chunks,
          classifyLine parse l ≠ LineClass.doneMark) →
        (ccRun parse m chunks).count (stopChunk m) = 1)
    ∧ (rlRun parse chunks).countP isCompletedB ≤ 1
    ∧ ((rlRun parse chunks).countP isCompletedB = 1
        ↔ extractedTexts parse (reassembleLines chunks) ≠ []) := by
  obtain ⟨h1, h2, h3⟩ := ccRunLines_counts parse m (reassembleLines chunks)
  rw [ccRun_factor]
  refine ⟨h1, h2, h3, ?_, ?_⟩
  · rw [rlRun_eq]
    by_cases hts : extractedTexts parse (reassembleLines chunks) = []
    · rw [if_pos hts]
      simp
    · rw [if_neg hts]
      rw [List.countP_append, List.countP_append, deltaSeq_countP_completed]
      simp [rlPreamble, rlClosing, isCompletedB]
  · rw [rlRun_eq]
    by_cases hts : extractedTexts parse (reassembleLines chunks) = []
    · rw [if_pos hts]
      simp [hts]
    · rw [if_neg hts]
      rw [List.countP_append, List.countP_append, deltaSeq_countP_completed]
      simp [rlPreamble, rlClosing, isCompletedB, hts]

/-- Witness for the amended C2 at a concrete input. -/
theorem c2_witness :
    (ccRun p0 m0 []).count CCOut.done = 1
    ∧ (ccRun p0 m0 []).count (stopChunk m0) = 1
    ∧ ((rlRun p0 []).countP isCompletedB = 1
        ↔ extractedTexts p0 (reassembleLines []) ≠ []) :=
  ⟨(c2_terminal_emission p0 m0 []).1,
   (c2_terminal_emission p0 m0 []).2.2.1
     (by
       intro l hl
       rw [show reassembleLines ([] : List Str) = [] from rfl] at hl
       simp at hl),
   (c2_terminal_emission p0 m0 []).2.2.2.2⟩

/-- C3: when every attempt ends busy (submit accepted, stream-open 409),
`sendAndStream` performs exactly its four (submit, stream-open) pairs and
throws the single busy error, which the handler surfaces as one 502
`proxy_error`; and in the serialization queue, a turn that settles as a
failure is still followed by the next queued turn's full event sequence,
strictly after its settlement. -/
theorem c3_busy_exhaustion (o : Nat → Attempt) (p : Str)
    (ho : ∀ i, i < 4 → o i = ⟨true, 409⟩)
    (N : Nat) (prog : Nat → List BCall × Bool) (t : List QEvent) (i : Nat)
    (hadm : chainAdmissible N prog t) (hfail : (prog i).2 = false)
    (hi : i + 1 < N) :
    sendAndStream o p
      = ([.submit p, .streamOpen,
          .idleWait 30000, .submit p, .streamOpen,
          .idleWait 30000, .submit p, .streamOpen,
          .idleWait 30000, .submit p, .streamOpen], .threwBusy)
    ∧ handleOutcome SendOutcome.threwBusy = ClientResp.proxyError 502 busyMsg
    ∧ ∃ u v, t = u ++ thunkEvents prog (i + 1) ++ v
        ∧ QEvent.settle i (prog i).2 ∈ u := by
  refine ⟨?_, rfl, chain_next_runs hadm hi⟩
  have h0 := ho 0 (by omega)
  have h1 := ho 1 (by omega)
  have h2 := ho 2 (by omega)
  have h3 := ho 3 (by omega)
  simp [sendAndStream, sendAndStreamGo, h0, h1, h2, h3, statusOk]

def o3 : Nat → Attempt := fun _ => ⟨true, 409⟩

def prog3 : Nat → List BCall × Bool := fun i =>
  if i = 0 then ([BCall.submit "a".data], false)
  else ([BCall.submit "b".data], true)

def t3 : List QEvent :=
  [.start 0, .call 0 0 (.submit "a".data), .settle 0 false,
   .start 1, .call 1 0 (.submit "b".data), .settle 1 true]

/-- Witness for C3: an all-busy oracle and a two-call trace whose first
call fails. -/
theorem c3_witness :
    sendAndStream o3 "m".data
      = ([.submit "m".data, .streamOpen,
          .idleWait 30000, .submit "m".data, .streamOpen,
          .idleWait 30000, .submit "m".data, .streamOpen,
          .idleWait 30000, .submit "m".data, .streamOpen], .threwBusy)
    ∧ handleOutcome SendOutcome.threwBusy = ClientResp.proxyError 502 busyMsg
    ∧ ∃ u v, t3 = u ++ thunkEvents prog3 (0 + 1) ++ v
        ∧ QEvent.settle 0 (prog3 0).2 ∈ u :=
  c3_busy_exhaustion o3 "m".data (by decide) 2 prog3 t3 0 (by decide)
    (by decide) (by decide)

/-- C4: the reassembled line sequence and the chat-completions
transcoder's full output are invariant under how the backend body is
chunked; the held-back trailing fragment is processed as one final line
on flush (it is part of `reassembleLines`), and re-joining the split
segments loses or duplicates nothing. -/
theorem c4_chunking_invariance (parse : Str → Option Json) (m : CCMeta)
    (cs ds : List Str) (h : cs.flatten = ds.flatten) :
    reassembleLines cs = reassembleLines ds
    ∧ ccRun parse m cs = ccRun parse m ds
    ∧ (∀ s : Str, joinNl (splitNl s) = s) := by
  refine ⟨?_, ?_, joinNl_splitNl⟩
  · rw [reassembleLines_eq_body, reassembleLines_eq_body, h]
  · rw [ccRun_factor, ccRun_factor, reassembleLines_eq_body,
      reassembleLines_eq_body, h]

def cs4a : List Str := ["ab\nc".data, "d\n".data]
def cs4b : List Str := ["ab".data, "\ncd\n".data]

/-- Witness for C4 at two different chunkings of `ab\ncd\n`. -/
theorem c4_witness :
    reassembleLines cs4a = reassembleLines cs4b
    ∧ ccRun p0 m0 cs4a = ccRun p0 m0 cs4b
    ∧ (∀ s : Str, joinNl (splitNl s) = s) :=
  c4_chunking_invariance p0 m0 cs4a cs4b (by decide)

/-- C5: on the three concrete backend lines (two text part-deltas
carrying "Hel" and "lo", then a usage event), the chat-completions
transcoder emits exactly the two content chunks in order, one stop-reason
chunk, and the `[DONE]` terminator; the non-streaming aggregate returns
"Hello". -/
theorem c5_concrete_transcode :
    ccRun parse5 m0 [body5]
      = [CCOut.chunk m0 (some "Hel".data) none,
         CCOut.chunk m0 (some "lo".data) none,
         stopChunk m0, CCOut.done]
    ∧ aggregateContent parse5 body5 = "Hello".data :=
  ⟨rfl, rfl⟩

/-- C6: a busy (409) stream-open on the first attempt followed by a
successful attempt re-submits exactly the same prompt exactly once (after
the idle wait) before the next stream-open, which then streams. -/
theorem c6_busy_then_single_resubmit (o : Nat → Attempt) (p : Str)
    (h0 : o 0 = ⟨true, 409⟩) (h1 : o 1 = ⟨true, 200⟩) :
    sendAndStream o p
      = ([.submit p, .streamOpen, .idleWait 30000, .submit p, .streamOpen],
         .streamed 200) := by
  simp [sendAndStream, sendAndStreamGo, h0, h1, statusOk]

def o6 : Nat → Attempt := fun i => if i = 0 then ⟨true, 409⟩ else ⟨true, 200⟩

/-- Witness for C6. -/
theorem c6_witness :
    sendAndStream o6 "hi".data
      = ([.submit "hi".data, .streamOpen, .idleWait 30000,
          .submit "hi".data, .streamOpen], .streamed 200) :=
  c6_busy_then_single_resubmit o6 "hi".data rfl rfl

/-- C7: at any attempt, a non-ok non-409 stream-open status ends the loop
immediately — exactly one (submit, stream-open) pair for that attempt and
no further retry — and the handler surfaces it as a single 502
`proxy_error` naming the status. -/
theorem c7_hard_failure_immediate (o : Nat → Attempt) (p : Str)
    (fuel a s : Nat) (ha : o a = ⟨true, s⟩) (h1 : ¬ statusOk s = true)
    (h2 : s ≠ 409) :
    sendAndStreamGo o p (fuel + 1) a
      = ((if 0 < a then [BCall.idleWait 30000] else [])
          ++ [.submit p, .streamOpen], .returnedError s)
    ∧ handleOutcome (SendOutcome.returnedError s)
        = ClientResp.proxyError 502 (streamErrMsg s) := by
  refine ⟨?_, rfl⟩
  rw [sendAndStreamGo]
  simp [ha, h1, h2]

def o7 : Nat → Attempt := fun _ => ⟨true, 500⟩

/-- Witness for C7: a 500 from stream-open on the first attempt. -/
theorem c7_witness :
    sendAndStreamGo o7 "p".data (3 + 1) 0
      = ((if 0 < 0 then [BCall.idleWait 30000] else [])
          ++ [.submit "p".data, .streamOpen], .returnedError 500)
    ∧ handleOutcome (SendOutcome.returnedError 500)
        = ClientResp.proxyError 502 (streamErrMsg 500) :=
  c7_hard_failure_immediate o7 "p".data 3 0 500 rfl (by decide) (by decide)

/-- C8: the lifecycle transcoder emits nothing at all when no text is
extracted; otherwise its output is exactly the four preamble events
(numbered 0-3, emitted lazily at the first fragment and never again),
the per-fragment deltas, and the four closing events. -/
theorem c8_preamble_gating (parse : Str → Option Json) (chunks : List Str) :
    (extractedTexts parse (reassembleLines chunks) = [] →
      rlRun parse chunks = [])
    ∧ (∀ x ts, extractedTexts parse (reassembleLines chunks) = x :: ts →
        rlRun parse chunks
          = rlPreamble 0 ++ deltaSeq 4 (x :: ts)
            ++ rlClosing (4 + (x :: ts).length) (x :: ts).flatten
                (usageFold parse zeroUsage (splitNl chunks.flatten).dropLast)) := by
  constructor
  · intro h
    rw [rlRun_eq, if_pos h]
  · intro x ts h
    rw [rlRun_eq, if_neg (by simp [h]), h]

/-- Witness for C8: a zero-text call emits no lifecycle events. -/
theorem c8_witness : rlRun p0 [] = [] :=
  (c8_preamble_gating p0 []).1 rfl

/-- C9: a text part-start or text part-delta whose content is the empty
string yields no extracted text (the `|| null` coalescing), and
consequently every content delta either transcoder emits carries a
non-empty fragment. -/
theorem c9_empty_text_suppressed :
    (∀ e : Json,
        fieldIsStr (e.getField keyEventKind) "part_start".data = true →
        fieldIsStr ((e.getField keyPart).bind (·.getField keyPartKind))
          "text".data = true →
        (e.getField keyPart).bind (·.getField keyContent)
          = some (.str []) →
        extractText e = none)
    ∧ (∀ e : Json,
        fieldIsStr (e.getField keyEventKind) "part_delta".data = true →
        fieldIsStr ((e.getField keyDelta).bind (·.getField keyPartDeltaKind))
          "text".data = true →
        (e.getField keyDelta).bind (·.getField keyContentDelta)
          = some (.str []) →
        extractText e = none)
    ∧ (∀ (parse : Str → Option Json) (m : CCMeta) (lines : List Str)
        (d : Bool) (s : Str),
        CCOut.chunk m (some s) none ∈ (processSSELines parse m lines d).1 →
        s ≠ [])
    ∧ (∀ (parse : Str → Option Json) (chunks : List Str) (n : Nat) (s : Str),
        RLOut.outputTextDelta n s ∈ rlRun parse chunks → s ≠ []) := by
  refine ⟨?_, ?_, processSSELines_delta_ne_nil, rlRun_delta_ne_nil⟩
  · intro e h1 h2 h3
    have hobj : e.isObjLike = true := by
      cases e <;> first | rfl | simp [Json.getField, fieldIsStr] at h1
    rw [extractText, if_neg (by simp [hobj])]
    by_cases hup : fieldIsStr (e.getField keyPartKind)
        ("user-prompt".data) = true
    · rw [if_pos hup]
    · rw [if_neg hup, if_pos (by simp [h1, h2]), h3]
      rfl
  · intro e h1 h2 h3
    have hobj : e.isObjLike = true := by
      cases e <;> first | rfl | simp [Json.getField, fieldIsStr] at h1
    have hps : fieldIsStr (e.getField keyEventKind) "part_start".data
        = false := by
      cases hek : e.getField keyEventKind with
      | none => rw [hek] at h1; simp [fieldIsStr] at h1
      | some v =>
        cases v with
        | str w =>
          rw [hek] at h1
          simp only [fieldIsStr, decide_eq_true_eq] at h1
          simp only [fieldIsStr, decide_eq_true_eq]
          rw [h1]
          decide
        | _ => rw [hek] at h1; simp [fieldIsStr] at h1
    rw [extractText, if_neg (by simp [hobj])]
    by_cases hup : fieldIsStr (e.getField keyPartKind)
        ("user-prompt".data) = true
    · rw [if_pos hup]
    · rw [if_neg hup, if_neg (by simp [hps]), if_pos (by simp [h1, h2]), h3]
      rfl

def e9a : Json :=
  .obj [(keyEventKind, .str "part_start".data),
        (keyPart, .obj [(keyPartKind, .str "text".data),
                        (keyContent, .str [])])]
def e9b : Json :=
  .obj [(keyEventKind, .str "part_delta".data),
        (keyDelta, .obj [(keyPartDeltaKind, .str "text".data),
                         (keyContentDelta, .str [])])]

/-- Witness for C9 on concrete empty-content events and a concrete
emitted delta. -/
theorem c9_witness :
    extractText e9a = none ∧ extractText e9b = none
    ∧ ("Hel".data : Str) ≠ [] ∧ ("lo".data : Str) ≠ [] :=
  ⟨c9_empty_text_suppressed.1 e9a rfl rfl rfl,
   c9_empty_text_suppressed.2.1 e9b rfl rfl rfl,
   c9_empty_text_suppressed.2.2.1 parse5 m0 [l5a] false "Hel".data (by decide),
   c9_empty_text_suppressed.2.2.2 parse5 [body5] 5 "lo".data (by decide)⟩

/-- C10: text emission is not gated by the terminal flag — an extractable
text event arriving after the stop chunk and `[DONE]` were already
emitted still yields a content-delta chunk, appended after the
terminator. -/
theorem c10_text_after_done (parse : Str → Option Json) (m : CCMeta)
    (lines : List Str) (l : Str) (e : Json) (s : Str)
    (hflag : (processSSELines parse m lines false).2 = true)
    (hc : classifyLine parse l = LineClass.evt e)
    (ht : truthyText (extractText e) = some s) :
    (processSSELines parse m (lines ++ [l]) false).1
      = (processSSELines parse m lines false).1
        ++ [CCOut.chunk m (some s) none]
    ∧ (processSSELines parse m lines false).1.count CCOut.done = 1 := by
  have hsingle : processSSELines parse m [l] true
      = ([CCOut.chunk m (some s) none], true) := by
    rw [processSSELines_cons, processSSELine_true_evt_some parse m l e s hc ht]
    simp [processSSELines]
  constructor
  · rw [processSSELines_append]
    dsimp only
    rw [hflag, hsingle]
  · have h1 := (processSSELines_false_count parse m lines).1
    rw [hflag] at h1
    simpa using h1

def jDone10 : Str := "\x7b\"done\":true\x7d".data
def jTd10 : Str := "\x7b\"text_delta\":\"hi\"\x7d".data
def eDone10 : Json := .obj [(keyDone, .bool true)]
def eTd10 : Json := .obj [(keyTextDelta, .str "hi".data)]

/-- `JSON.parse` restricted to the two payloads of the C10 scenario. -/
def parse10 : Str → Option Json := fun s =>
  if s = jDone10 then some eDone10
  else if s = jTd10 then some eTd10
  else none

def lDone10 : Str := "data: ".data ++ jDone10
def lTd10 : Str := "data: ".data ++ jTd10

/-- Witness for C10: a done-signalling event followed by a text event. -/
theorem c10_witness :
    (processSSELines parse10 m0 ([lDone10] ++ [lTd10]) false).1
      = (processSSELines parse10 m0 [lDone10] false).1
        ++ [CCOut.chunk m0 (some "hi".data) none]
    ∧ (processSSELines parse10 m0 [lDone10] false).1.count CCOut.done = 1 :=
  c10_text_after_done parse10 m0 [lDone10] lTd10 eTd10 "hi".data rfl rfl rfl

end Rovodev
